import Mathlib

/-!
# Timeline model of a Matrix room (src/timeline2/TimelineModel.cpp)

A shallow embedding of `TimelineModel`: the event store (`events`, `eventOrder`),
the backward pagination (`fetchHistory`, its transport callback, `addBackwardsEvents`),
the decrypt-on-read pipeline (`decryptEvent`) and the projection of a row (`data` and
the visitors it applies), followed by theorems about them.

Conventions
* `QHash<QString, TimelineEvents>` is a finite map, represented by its lookup function.
* `std::vector<QString>` is a `List String`.
* `size_t` arithmetic is `Nat` arithmetic modulo `2^64`; `static_cast<int>` reduces
  modulo `2^32` and reads the result as a two's complement number.
* A `double` is a value of IEEE 754 binary64; conversions and the division round to
  nearest, ties to even.
* A C++ exception leaving a function is the `Except.error` branch of its result.
* Collaborators outside the file (cache, olm client, json library, event parser,
  translation) are parameters.
-/

namespace Timeline2

/-! ## JSON documents (nlohmann::json, as far as `decryptEvent` uses it) -/

/-- A JSON value. Objects keep their members as a key/value list with unique keys. -/
inductive Json where
  | null : Json
  | bool (b : Bool) : Json
  | num (n : Int) : Json
  | str (s : String) : Json
  | arr (items : List Json) : Json
  | obj (members : List (String × Json)) : Json

/-- Replace the value of member `k`, or add the member when `k` is absent. -/
def setMember (k : String) (v : Json) : List (String × Json) → List (String × Json)
  | [] => [(k, v)]
  | (k', v') :: rest => if k' = k then (k, v) :: rest else (k', v') :: setMember k v rest

/-- Value of member `k` of a member list. -/
def getMember (k : String) : List (String × Json) → Option Json
  | [] => none
  | (k', v') :: rest => if k' = k then some v' else getMember k rest

/-- Exceptions of the json library that `decryptEvent` can meet. -/
inductive JsonException where
  | parse_error
  | type_error
  deriving DecidableEq, Repr

/-- Assignment `j[k] = v` with a string key: a `null` value becomes an object first,
an object gets the member set, any other value throws `type_error`. -/
def Json.assign (j : Json) (k : String) (v : Json) : Except JsonException Json :=
  match j with
  | .null => .ok (.obj [(k, v)])
  | .obj members => .ok (.obj (setMember k v members))
  | _ => .error .type_error

/-- Member `k` of a JSON value, `none` when the value is no object or has no such member. -/
def Json.member (j : Json) (k : String) : Option Json :=
  match j with
  | .obj members => getMember k members
  | _ => none

/-! ## Events (mtx::events) -/

/-- Unsigned data of an event envelope (the fields that are serialised). -/
structure UnsignedData where
  age : Nat := 0
  transaction_id : String := ""
  deriving DecidableEq, Repr

/-- Serialisation of the unsigned data, as assigned to `body["unsigned"]`. -/
def UnsignedData.to_json (u : UnsignedData) : Json :=
  .obj [("age", .num u.age), ("transaction_id", .str u.transaction_id)]

/-- State event kinds of the timeline variant. -/
inductive StateKind where
  | Aliases | Avatar | CanonicalAlias | Create | Encryption | GuestAccess
  | HistoryVisibility | JoinRules | Member | Name | PinnedEvents | PowerLevels
  | Tombstone | Topic
  deriving DecidableEq, Repr

/-- Content of `msg::Encrypted`. -/
structure Encrypted where
  ciphertext : String := ""
  session_id : String := ""
  sender_key : String := ""
  deriving DecidableEq, Repr

/-- Variant-specific content of a timeline event: the alternatives of
`mtx::events::collections::TimelineEvents`. -/
inductive Content where
  | state (kind : StateKind)
  | encrypted (c : Encrypted)
  | redaction
  | sticker (body url : String) (h w : Nat)
  | redacted
  | audio (body url : String)
  | emote (body formatted_body : String)
  | file (body url : String)
  | image (body url : String) (h w : Nat)
  | notice (body formatted_body : String)
  | text (body formatted_body : String)
  | video (body url : String) (h w : Nat)
  deriving DecidableEq, Repr

/-- The event types of `mtx::events::EventType`. -/
inductive EventType where
  | RoomKeyRequest | RoomAliases | RoomAvatar | RoomCanonicalAlias | RoomCreate
  | RoomEncrypted | RoomEncryption | RoomGuestAccess | RoomHistoryVisibility
  | RoomJoinRules | RoomMember | RoomMessage | RoomName | RoomPowerLevels | RoomTopic
  | RoomRedaction | RoomPinnedEvents | RoomTombstone | Sticker | Tag | Unsupported
  deriving DecidableEq, Repr

/-- One timeline event: the envelope fields shared by every variant, and its content. -/
structure TimelineEvents where
  type : EventType := .Unsupported
  event_id : String := ""
  room_id : String := ""
  sender : String := ""
  origin_server_ts : Nat := 0
  unsigned_data : UnsignedData := {}
  content : Content := .state .Aliases
  deriving DecidableEq, Repr

/-- A default-constructed variant holds its first alternative, default-constructed. -/
instance : Inhabited TimelineEvents := ⟨{}⟩

/-- The visitor `eventId`. -/
def eventId (e : TimelineEvents) : String := e.event_id

/-- The visitor `senderId`. -/
def senderId (e : TimelineEvents) : String := e.sender

/-- The visitor `eventTimestamp`, in milliseconds since the epoch. -/
def eventTimestamp (e : TimelineEvents) : Nat := e.origin_server_ts

/-- An encrypted envelope `EncryptedEvent<msg::Encrypted>`. -/
structure EncryptedEvent where
  event_id : String := ""
  room_id : String := ""
  sender : String := ""
  origin_server_ts : Nat := 0
  unsigned_data : UnsignedData := {}
  content : Encrypted := {}
  deriving DecidableEq, Repr

/-- The encrypted envelope as an alternative of the timeline variant. -/
def EncryptedEvent.toTimelineEvents (e : EncryptedEvent) : TimelineEvents :=
  { event_id := e.event_id, room_id := e.room_id, sender := e.sender,
    origin_server_ts := e.origin_server_ts, unsigned_data := e.unsigned_data,
    content := .encrypted e.content }

/-! ## Responses of the transport (mtx::responses) -/

/-- The timeline part of a sync response: `mtx::responses::Timeline`. -/
structure Timeline where
  events : List TimelineEvents := []
  prev_batch : String := ""
  limited : Bool := false
  deriving DecidableEq, Repr

/-- The response of `/messages`: `mtx::responses::Messages`, chunk newest first. -/
structure Messages where
  start : String := ""
  «end» : String := ""
  chunk : List TimelineEvents := []
  deriving DecidableEq, Repr

/-- Options of a `/messages` request: `mtx::http::MessagesOpts`. -/
structure MessagesOpts where
  room_id : String := ""
  «from» : String := ""
  deriving DecidableEq, Repr

/-- A failed request: `mtx::http::RequestErr` when set. -/
structure ClientError where
  errcode : String := ""
  error : String := ""
  deriving DecidableEq, Repr

/-! ## The hash of events (QHash<QString, TimelineEvents>) -/

/-- A hash from event id to event, given by its lookup. -/
def QHash := String → Option TimelineEvents

/-- The empty hash. -/
def QHash.empty : QHash := fun _ => none

/-- `QHash::insert`: an item with the same key is replaced. -/
def QHash.insert (h : QHash) (key : String) (value : TimelineEvents) : QHash :=
  fun k => if k = key then some value else h k

/-- `QHash::contains`. -/
def QHash.contains (h : QHash) (key : String) : Bool := (h key).isSome

/-- `QHash::value`: the default-constructed value when the key is absent. -/
def QHash.value (h : QHash) (key : String) : TimelineEvents := (h key).getD default

/-! ## Machine integers -/

/-- Arithmetic on `size_t`. -/
def sizeT (n : Int) : Nat := (n % (2 ^ 64 : Int)).toNat

/-- The conversion `static_cast<int>` of an unsigned value. -/
def toInt (n : Nat) : Int :=
  if n % 2 ^ 32 < 2 ^ 31 then (n % 2 ^ 32 : Nat) else (n % 2 ^ 32 : Nat) - (2 ^ 32 : Int)

/-! ## The model object -/

/-- The data members of `TimelineModel` that the embedded functions touch, and the
`rowsInserted` ranges announced so far through `beginInsertRows` (oldest first). -/
structure TimelineModel where
  room_id_ : String
  events : QHash := QHash.empty
  eventOrder : List String := []
  isInitialSync : Bool := true
  paginationInProgress : Bool := false
  prev_batch_token_ : String := ""
  rowsInserted : List (Int × Int) := []

/-- Modelled from the spec: the member initialisers of `TimelineModel.h` (the header is
not part of the sources). A timeline is created empty, before its first sync, idle,
with no cursor. -/
def TimelineModel.fresh (room_id : String) : TimelineModel := { room_id_ := room_id }

/-- Insert the events of a batch into the hash, each under its own id, first to last;
returns the hash and the ids in batch order (the loop of `addEvents` and of
`addBackwardsEvents`). -/
def insertBatch (h : QHash) (ids : List String) :
    List TimelineEvents → QHash × List String
  | [] => (h, ids)
  | e :: rest => insertBatch (h.insert (eventId e) e) (ids ++ [eventId e]) rest

/-- `TimelineModel::rowCount`. -/
def TimelineModel.rowCount (m : TimelineModel) : Int := toInt m.eventOrder.length

/-- `TimelineModel::addEvents`: append a forward batch. -/
def TimelineModel.addEvents (m : TimelineModel) (timeline : Timeline) : TimelineModel :=
  let m := if m.isInitialSync then
      { m with prev_batch_token_ := timeline.prev_batch, isInitialSync := false }
    else m
  if timeline.events.isEmpty then m
  else
    let (events, ids) := insertBatch m.events [] timeline.events
    { m with
      events := events
      rowsInserted := m.rowsInserted ++
        [(toInt m.eventOrder.length,
          toInt (sizeT ((m.eventOrder.length : Int) + ids.length - 1)))]
      eventOrder := m.eventOrder ++ ids }

/-- `TimelineModel::addBackwardsEvents`: prepend a backward chunk, reversed. -/
def TimelineModel.addBackwardsEvents (m : TimelineModel) (msgs : Messages) : TimelineModel :=
  let (events, ids) := insertBatch m.events [] msgs.chunk
  { m with
    events := events
    rowsInserted := m.rowsInserted ++ [(0, toInt (sizeT ((ids.length : Int) - 1)))]
    eventOrder := ids.reverse ++ m.eventOrder
    prev_batch_token_ := msgs.«end»
    paginationInProgress := false }

/-- `TimelineModel::fetchHistory`: the new state and the request handed to the http
client, if any. -/
def TimelineModel.fetchHistory (m : TimelineModel) : TimelineModel × Option MessagesOpts :=
  if m.paginationInProgress then (m, none)
  else
    ({ m with paginationInProgress := true },
     some { room_id := m.room_id_, «from» := m.prev_batch_token_ })

/-- The callback that `fetchHistory` hands to the http client: on an error it logs and
returns, otherwise it emits `oldMessagesRetrieved`, connected to `addBackwardsEvents`. -/
def TimelineModel.messagesCallback (m : TimelineModel) (res : Messages)
    (err : Option ClientError) : TimelineModel :=
  match err with
  | some _ => m
  | none => m.addBackwardsEvents res

/-! ## Decrypt on read -/

/-- The key of an inbound megolm session in the cache. -/
structure MegolmSessionIndex where
  room_id : String := ""
  session_id : String := ""
  sender_key : String := ""
  deriving DecidableEq, Repr

/-- The result of `decryptEvent`. -/
structure DecryptionResult where
  event : TimelineEvents
  success : Bool
  deriving DecidableEq, Repr

/-- An inbound group session as stored in the cache. -/
structure InboundGroupSession where
  pickled : String := ""
  deriving DecidableEq, Repr

/-- An `lmdb::error`, with its `what()`. -/
structure LmdbError where
  what : String := ""
  deriving DecidableEq, Repr

/-- An `mtx::crypto::olm_exception`, with its `what()`. -/
structure OlmException where
  what : String := ""
  deriving DecidableEq, Repr

/-- The collaborators of `decryptEvent`. A thrown exception is the `error` branch. -/
structure Collaborators where
  /-- The method `cache::client()->inboundMegolmSessionExists`. -/
  inboundMegolmSessionExists : MegolmSessionIndex → Except LmdbError Bool
  /-- The method `cache::client()->getInboundMegolmSession`. -/
  getInboundMegolmSession : MegolmSessionIndex → Except LmdbError InboundGroupSession
  /-- The method `olm::client()->decrypt_group_message`, returning the plaintext bytes. -/
  decrypt_group_message : InboundGroupSession → String → Except OlmException String
  /-- The function `json::parse`, which throws `parse_error` on malformed text. -/
  parse : String → Except JsonException Json
  /-- The function `mtx::responses::utils::parse_timeline_events` on an empty vector. -/
  parse_timeline_events : Json → List TimelineEvents
  /-- The translation `tr` of a source text. -/
  tr : String → String

/-- `QString::arg` for the place marker `%1`. -/
def arg1 (s a : String) : String := s.replace "%1" a

/-- The source text of the placeholder for a missing session. -/
def noKeysText : String := "-- Encrypted Event (No keys found for decryption) --"

/-- The source text of the placeholder for a failed existence check. -/
def dbCheckText : String := "-- Decryption Error (failed to communicate with DB) --"

/-- The source text of the placeholder for a failed session retrieval. -/
def dbRetrieveText : String :=
  "-- Decryption Error (failed to retrieve megolm keys from db) --"

/-- The source text of the placeholder for a failed group decryption. -/
def olmErrorText : String := "-- Decryption Error (%1) --"

/-- The source text of the placeholder for an unparsed plaintext. -/
def unknownTypeText : String := "-- Encrypted Event (Unknown event type) --"

/-- The local `dummy` of `decryptEvent`, a notice carrying the time, id and sender of
the envelope, with the given body. -/
def dummyNotice (e : EncryptedEvent) (body : String) : TimelineEvents :=
  { origin_server_ts := e.origin_server_ts, event_id := e.event_id, sender := e.sender,
    content := .notice body "" }

/-- The session index that `decryptEvent` builds. -/
def sessionIndex (m : TimelineModel) (e : EncryptedEvent) : MegolmSessionIndex :=
  { room_id := m.room_id_, session_id := e.content.session_id,
    sender_key := e.content.sender_key }

/-- The block "Add missing fields for the event" of `decryptEvent`. -/
def addMissingFields (e : EncryptedEvent) (body : Json) : Except JsonException Json := do
  let body ← body.assign "event_id" (.str e.event_id)
  let body ← body.assign "sender" (.str e.sender)
  let body ← body.assign "origin_server_ts" (.num e.origin_server_ts)
  let body ← body.assign "unsigned" e.unsigned_data.to_json
  pure body

/-- The first part of `decryptEvent`, up to the call of the event parser: either a
placeholder result that is returned at once, or the `event_array` for the parser. -/
def eventArray (c : Collaborators) (m : TimelineModel) (e : EncryptedEvent) :
    Except JsonException (DecryptionResult ⊕ Json) :=
  let index := sessionIndex m e
  match c.inboundMegolmSessionExists index with
  | .error _ => .ok (.inl ⟨dummyNotice e (c.tr dbCheckText), false⟩)
  | .ok false => .ok (.inl ⟨dummyNotice e (c.tr noKeysText), false⟩)
  | .ok true =>
    match c.getInboundMegolmSession index with
    | .error _ => .ok (.inl ⟨dummyNotice e (c.tr dbRetrieveText), false⟩)
    | .ok session =>
      match c.decrypt_group_message session e.content.ciphertext with
      | .error ex => .ok (.inl ⟨dummyNotice e (arg1 (c.tr olmErrorText) ex.what), false⟩)
      | .ok msg_str => do
        let body ← c.parse msg_str
        let body ← addMissingFields e body
        pure (.inr (.arr [body]))

/-- The last part of `decryptEvent`: exactly one parsed event is the result. -/
def parsedResult (c : Collaborators) (e : EncryptedEvent) :
    List TimelineEvents → DecryptionResult
  | [ev] => ⟨ev, true⟩
  | _ => ⟨dummyNotice e (c.tr unknownTypeText), false⟩

/-- `TimelineModel::decryptEvent`. An exception that leaves the function is the
`error` branch. -/
def TimelineModel.decryptEvent (c : Collaborators) (m : TimelineModel) (e : EncryptedEvent) :
    Except JsonException DecryptionResult := do
  match ← eventArray c m e with
  | .inl placeholder => pure placeholder
  | .inr event_array => pure (parsedResult c e (c.parse_timeline_events event_array))

/-! ## Double precision numbers (IEEE 754 binary64, round to nearest, ties to even) -/

/-- A `double` that is not negative: the finite value `mant * 2^exp`, where `mant` is 0
or has exactly 53 bits (`2^52 ≤ mant < 2^53`), or the result of a division by zero
(`inf` for a positive dividend, `nan` for `0 / 0`). The bounds of the exponent are not
represented: a 64 bit integer converts to a value of at most `2^64`, and the quotient of
two such values that is not 0 is at least `2^-64`. -/
inductive Double where
  | finite (mant : Nat) (exp : Int)
  | inf
  | nan
  deriving DecidableEq, Repr

/-- The integer nearest to `q + rem / den` (for `rem < den`), the even one of the two
when it lies halfway between them. -/
def roundHalfEven (q rem den : Nat) : Nat :=
  if 2 * rem < den then q
  else if den < 2 * rem then q + 1
  else if q % 2 = 0 then q else q + 1

/-- The value `mant * 2^exp` for a rounded `mant`, which has 53 bits or is `2^53`. -/
def Double.normal (mant : Nat) (exp : Int) : Double :=
  if mant = 2 ^ 53 then .finite (2 ^ 52) (exp + 1) else .finite mant exp

/-- The position of the leading bit of `n`, found in at most `fuel` halvings. -/
def leadingBitAux : Nat → Nat → Nat
  | 0, _ => 0
  | fuel + 1, n => if n < 2 then 0 else leadingBitAux fuel (n / 2) + 1

/-- The position of the leading bit of `n`: the `k` with `2^k ≤ n < 2^(k+1)`. -/
def leadingBit (n : Nat) : Nat := leadingBitAux n n

/-- The conversion of an unsigned integer to `double`: exact below `2^53`, rounded to
53 bits from there on. -/
def Double.ofUInt64 (n : Nat) : Double :=
  if n = 0 then .finite 0 0
  else if leadingBit n ≤ 52 then
    .finite (n * 2 ^ (52 - leadingBit n)) ((leadingBit n : Int) - 52)
  else
    Double.normal
      (roundHalfEven (n / 2 ^ (leadingBit n - 52)) (n % 2 ^ (leadingBit n - 52))
        (2 ^ (leadingBit n - 52)))
      ((leadingBit n : Int) - 52)

/-- The division of two doubles that are not negative: the exact quotient rounded to 53
bits. For 53 bit operands `a` and `b` the quotient `a / b` lies in `[1, 2)` when
`b ≤ a` and in `(1/2, 1)` otherwise, which fixes the exponent of the result. -/
def Double.div : Double → Double → Double
  | .finite a ea, .finite b eb =>
    if b = 0 then (if a = 0 then .nan else .inf)
    else if a = 0 then .finite 0 0
    else if b ≤ a then
      Double.normal (roundHalfEven (a * 2 ^ 52 / b) (a * 2 ^ 52 % b) b) (ea - eb - 52)
    else
      Double.normal (roundHalfEven (a * 2 ^ 53 / b) (a * 2 ^ 53 % b) b) (ea - eb - 53)
  | .finite _ _, .inf => .finite 0 0
  | .inf, .finite _ _ => .inf
  | _, _ => .nan

/-- The value of a double as a fraction, `none` for `inf` and `nan`. -/
def Double.toRat : Double → Option ℚ
  | .finite mant exp => some ((mant : ℚ) * (2 : ℚ) ^ exp)
  | _ => none

/-! ## Projection of an event (the visitors of the anonymous namespace) -/

/-- Does the text start with the pattern? -/
def startsWith : List Char → List Char → Bool
  | [], _ => true
  | _ :: _, [] => false
  | p :: ps, c :: cs => decide (p = c) && startsWith ps cs

/-- `std::string::find`: the first position at which the pattern starts, `none` for
`npos`. The patterns searched are ASCII, so positions in characters and in bytes
select the same places. -/
def stdFind (pat : List Char) : List Char → Option Nat
  | [] => if pat.isEmpty then some 0 else none
  | c :: cs => if startsWith pat (c :: cs) then some 0 else (stdFind pat cs).map (· + 1)

/-- `std::string::erase(pos, len)`. -/
def stdErase (s : List Char) (pos len : Nat) : List Char := s.take pos ++ s.drop (pos + len)

/-- The two statements `pos = temp.find(marker); if (pos != npos) temp.erase(pos, size)`. -/
def eraseMarker (marker : String) (temp : List Char) : List Char :=
  match stdFind marker.data temp with
  | some pos => stdErase temp pos marker.data.length
  | none => temp

/-- The overloads of `eventFormattedBody`: the contents with a `formatted_body` (text,
notice, emote) take the second one, all others the first. -/
def eventFormattedBody (e : TimelineEvents) : String :=
  match e.content with
  | .emote body formatted_body | .notice body formatted_body | .text body formatted_body =>
    if formatted_body ≠ "" then
      String.mk (eraseMarker "</mx-reply>" (eraseMarker "<mx-reply>" formatted_body.data))
    else body
  | _ => ""

/-- The overloads of `eventUrl`: the generic one takes `const T &` and returns the empty
string, the other one takes `const RoomEvent<T> &` for a content with a `url`. The
alternatives `RoomEvent<msg::Audio>`, `File`, `Image` and `Video` match the second one
exactly and take it. `Sticker` is a class derived from `RoomEvent<msg::StickerImage>`,
so for it the generic overload is the exact match and wins, as it does for all
contents without a `url`. -/
def eventUrl (e : TimelineEvents) : String :=
  match e.content with
  | .audio _ url | .file _ url | .image _ url _ _ | .video _ url _ _ => url
  | _ => ""

/-- The event types of `qml_mtx_events::EventType`. -/
inductive qml_mtx_events.EventType where
  | Unsupported | KeyRequest | Aliases | Avatar | CanonicalAlias | Create | Encrypted
  | Encryption | GuestAccess | HistoryVisibility | JoinRules | Member | Name | PowerLevels
  | Topic | Tombstone | Redaction | PinnedEvents | Sticker | Tag | AudioMessage
  | EmoteMessage | FileMessage | ImageMessage | NoticeMessage | TextMessage | VideoMessage
  | UnknownMessage
  deriving DecidableEq, Repr

/-- The overloads of `toRoomEventType`: one for each message content, and the switch
on the `type` of the event for all other contents. -/
def toRoomEventType (e : TimelineEvents) : qml_mtx_events.EventType :=
  match e.content with
  | .audio _ _ => .AudioMessage
  | .emote _ _ => .EmoteMessage
  | .file _ _ => .FileMessage
  | .image _ _ _ _ => .ImageMessage
  | .notice _ _ => .NoticeMessage
  | .text _ _ => .TextMessage
  | .video _ _ _ _ => .VideoMessage
  | _ =>
    match e.type with
    | .RoomKeyRequest => .KeyRequest
    | .RoomAliases => .Aliases
    | .RoomAvatar => .Avatar
    | .RoomCanonicalAlias => .CanonicalAlias
    | .RoomCreate => .Create
    | .RoomEncrypted => .Encrypted
    | .RoomEncryption => .Encryption
    | .RoomGuestAccess => .GuestAccess
    | .RoomHistoryVisibility => .HistoryVisibility
    | .RoomJoinRules => .JoinRules
    | .RoomMember => .Member
    | .RoomMessage => .UnknownMessage
    | .RoomName => .Name
    | .RoomPowerLevels => .PowerLevels
    | .RoomTopic => .Topic
    | .RoomTombstone => .Tombstone
    | .RoomRedaction => .Redaction
    | .RoomPinnedEvents => .PinnedEvents
    | .Sticker => .Sticker
    | .Tag => .Tag
    | .Unsupported => .Unsupported

/-- The overloads of `eventHeight`: the contents with `info.h` (image, video, sticker)
return the stored 64 bit value, all others `-1` converted to `uint64_t`. -/
def eventHeight (e : TimelineEvents) : Nat :=
  match e.content with
  | .sticker _ _ h _ | .image _ _ h _ | .video _ _ h _ => h
  | _ => sizeT (-1)

/-- The overloads of `eventWidth`: the contents with `info.w` (image, video, sticker)
return the stored 64 bit value, all others `-1` converted to `uint64_t`. -/
def eventWidth (e : TimelineEvents) : Nat :=
  match e.content with
  | .sticker _ _ _ w | .image _ _ _ w | .video _ _ _ w => w
  | _ => sizeT (-1)

/-- The divisor of `eventPropHeight`: the local `w` after `if (w == 0) w = 1`. -/
def propHeightDivisor (e : TimelineEvents) : Nat :=
  let w := eventWidth e
  if w = 0 then 1 else w

/-- `eventPropHeight`: the quotient `eventHeight(e) / (double)w`, in which the height is
converted to `double` as well. -/
def eventPropHeight (e : TimelineEvents) : Double :=
  Double.div (Double.ofUInt64 (eventHeight e)) (Double.ofUInt64 (propHeightDivisor e))

/-! ## Reading a row (TimelineModel::data) -/

/-- The roles of the model, as listed in `roleNames`; `other` is any further `int`. -/
inductive Role where
  | Section | «Type» | Body | FormattedBody | UserId | UserName | Timestamp | Url
  | Height | Width | ProportionalHeight | Id
  | other (role : Int)
  deriving DecidableEq, Repr

/-- The values that `data` returns in a `QVariant`. -/
inductive QVariant where
  | invalid
  | string (s : String)
  | dateTime (msecsSinceEpoch : Nat)
  | eventType (t : qml_mtx_events.EventType)
  | ulonglong (n : Nat)
  | double (d : Double)
  deriving DecidableEq, Repr

/-- What ends a call of `data` without a value: an exception of the json library that
`decryptEvent` lets through, or an index outside `eventOrder` (undefined behaviour of
`std::vector::operator[]`). -/
inductive Fault where
  | json (e : JsonException)
  | out_of_range
  deriving DecidableEq, Repr

/-- The collaborators of `data` outside the file. -/
structure ViewContext where
  /-- The start of the local calendar day of a timestamp, in milliseconds since the
  epoch: `QDateTime::fromMSecsSinceEpoch(ts)`, `setTime(QTime())`,
  `toMSecsSinceEpoch()`. Two timestamps have the same date when the values agree. -/
  startOfDay : Nat → Int
  /-- The function `Cache::displayName(room_id, id)`. -/
  displayName : String → String → String
  /-- The function `utils::replaceEmoji`. -/
  replaceEmoji : String → String

/-- The element `v[i]` of a vector for an `int` index. -/
def vectorAt (v : List String) (i : Int) : Except Fault String :=
  if 0 ≤ i then
    match v.get? i.toNat with
    | some x => .ok x
    | none => .error .out_of_range
  else .error .out_of_range

/-- The alternative `EncryptedEvent<msg::Encrypted>` of the variant, if the event holds
it (`boost::get`). -/
def asEncrypted (e : TimelineEvents) : Option EncryptedEvent :=
  match e.content with
  | .encrypted content =>
    some { event_id := e.event_id, room_id := e.room_id, sender := e.sender,
           origin_server_ts := e.origin_server_ts, unsigned_data := e.unsigned_data,
           content := content }
  | _ => none

/-- The label `QString("%2 %1").arg(date.toMSecsSinceEpoch()).arg(userId)`. -/
def datedLabel (date : Int) (userId : String) : String := userId ++ " " ++ toString date

/-- The loop of the `Section` case, entered with `r`: `some label` when the loop
returns the dated label, `none` when it ends (by its bound `r > 0` or by `break`). -/
def sectionScan (v : ViewContext) (m : TimelineModel) (date : Int) (userId : String) :
    Nat → Except Fault (Option String)
  | 0 => .ok none
  | r + 1 => do
    let prev := m.events.value (← vectorAt m.eventOrder ((r + 1 : Nat) : Int))
    if v.startOfDay (eventTimestamp prev) ≠ date then
      pure (some (datedLabel date userId))
    else if userId ≠ senderId prev then
      pure none
    else sectionScan v m date userId r

/-- The `Section` case of `data` for the event of row `row`. -/
def sectionLabel (v : ViewContext) (m : TimelineModel) (row : Int) (event : TimelineEvents) :
    Except Fault String := do
  let date := v.startOfDay (eventTimestamp event)
  let userId := senderId event
  match ← sectionScan v m date userId (row - 1).toNat with
  | some label => pure label
  | none => pure userId

/-- The local `event` of `data`: the stored event of the row, replaced by the event of
`decryptEvent` when it is encrypted. -/
def resolveEvent (c : Collaborators) (m : TimelineModel) (id : String) :
    Except Fault TimelineEvents :=
  let event := m.events.value id
  match asEncrypted event with
  | some e =>
    match m.decryptEvent c e with
    | .ok result => .ok result.event
    | .error ex => .error (.json ex)
  | none => .ok event

/-- `TimelineModel::data` for the row `row` and the role `role`. -/
def TimelineModel.data (c : Collaborators) (v : ViewContext) (m : TimelineModel)
    (row : Int) (role : Role) : Except Fault QVariant := do
  if row < 0 ∧ row ≥ toInt m.eventOrder.length then
    pure .invalid
  else
    let id ← vectorAt m.eventOrder row
    let event ← resolveEvent c m id
    match role with
    | .Section => do
      let label ← sectionLabel v m row event
      pure (.string label)
    | .UserId => pure (.string (senderId event))
    | .UserName => pure (.string (v.displayName m.room_id_ (senderId event)))
    | .Timestamp => pure (.dateTime (eventTimestamp event))
    | .«Type» => pure (.eventType (toRoomEventType event))
    | .FormattedBody => pure (.string (v.replaceEmoji (eventFormattedBody event)))
    | .Url => pure (.string (eventUrl event))
    | .Height => pure (.ulonglong (eventHeight event))
    | .Width => pure (.ulonglong (eventWidth event))
    | .ProportionalHeight => pure (.double (eventPropHeight event))
    | .Id => pure (.string id)
    | _ => pure .invalid

/-! ## Runs of the model -/

/-- A call of one of the two insert operations. -/
inductive StoreOp where
  | forward (timeline : Timeline)
  | backward (msgs : Messages)

/-- The ids that a call inserts into the order, in the sequence of the argument. -/
def StoreOp.ids : StoreOp → List String
  | .forward timeline => timeline.events.map eventId
  | .backward msgs => msgs.chunk.map eventId

/-- Apply one insert call. -/
def StoreOp.apply (m : TimelineModel) : StoreOp → TimelineModel
  | .forward timeline => m.addEvents timeline
  | .backward msgs => m.addBackwardsEvents msgs

/-- Apply insert calls from left to right. -/
def applyStoreOps (m : TimelineModel) (ops : List StoreOp) : TimelineModel :=
  ops.foldl StoreOp.apply m

/-- The model together with the requests that the http client has not answered yet. -/
structure World where
  model : TimelineModel
  outstanding : List MessagesOpts := []

/-- What can happen to a timeline: a call of a public operation, or the transport
answering the outstanding request number `i`. -/
inductive Op where
  | addEvents (timeline : Timeline)
  | addBackwardsEvents (msgs : Messages)
  | fetchHistory
  | response (i : Nat) (res : Messages) (err : Option ClientError)

/-- One step; `none` when a response is delivered for a request that was not issued. -/
def World.step (w : World) : Op → Option World
  | .addEvents timeline => some { w with model := w.model.addEvents timeline }
  | .addBackwardsEvents msgs => some { w with model := w.model.addBackwardsEvents msgs }
  | .fetchHistory =>
    match w.model.fetchHistory with
    | (m, none) => some { w with model := m }
    | (m, some opts) => some { model := m, outstanding := w.outstanding ++ [opts] }
  | .response i res err =>
    if i < w.outstanding.length then
      some { model := w.model.messagesCallback res err,
             outstanding := w.outstanding.eraseIdx i }
    else none

/-- Run steps from left to right. -/
def World.run (w : World) : List Op → Option World
  | [] => some w
  | op :: ops => (w.step op).bind fun w => w.run ops

/-- The world of a timeline that was just created. -/
def World.fresh (room_id : String) : World := { model := TimelineModel.fresh room_id }

/-- A step of the transport protocol: everything except a direct call of the slot
`addBackwardsEvents`, which the model only receives as a successful response. -/
def Op.viaTransport : Op → Bool
  | .addBackwardsEvents _ => false
  | _ => true

/-! ## Notions used in the statements -/

/-- The last event of a batch that carries the id `k`. -/
def lastWithId (k : String) (evs : List TimelineEvents) : Option TimelineEvents :=
  evs.reverse.find? fun e => decide (eventId e = k)

/-- The invariant of the transport protocol: a request is outstanding only while
`paginationInProgress` is set, and then it is the only one. -/
def SingleFlight (w : World) : Prop :=
  w.outstanding.length ≤ (if w.model.paginationInProgress then 1 else 0)

/-- The origin timestamp of the event that the hash holds for an id of the order. -/
def tsAt (m : TimelineModel) (id : String) : Nat := eventTimestamp (m.events.value id)

/-- The order is non-decreasing by origin timestamp. -/
def Chronological (m : TimelineModel) : Prop :=
  (m.eventOrder.map (tsAt m)).Pairwise (· ≤ ·)

/-- A call that fits the timeline in time: its ids are new and pairwise distinct; a
forward batch is oldest first and not older than any event of the order, a backward
chunk is newest first and not newer than any event of the order. -/
def StoreOp.inOrder (m : TimelineModel) : StoreOp → Prop
  | .forward timeline =>
    (∀ id ∈ timeline.events.map eventId, id ∉ m.eventOrder)
    ∧ (timeline.events.map eventId).Nodup
    ∧ (timeline.events.map eventTimestamp).Pairwise (· ≤ ·)
    ∧ ∀ id ∈ m.eventOrder, ∀ e ∈ timeline.events, tsAt m id ≤ eventTimestamp e
  | .backward msgs =>
    (∀ id ∈ msgs.chunk.map eventId, id ∉ m.eventOrder)
    ∧ (msgs.chunk.map eventId).Nodup
    ∧ (msgs.chunk.map eventTimestamp).Pairwise (· ≥ ·)
    ∧ ∀ e ∈ msgs.chunk, ∀ id ∈ m.eventOrder, eventTimestamp e ≤ tsAt m id

/-- Every call of the sequence fits the timeline it is applied to. -/
def runInOrder (m : TimelineModel) : List StoreOp → Prop
  | [] => True
  | op :: ops => op.inOrder m ∧ runInOrder (op.apply m) ops

/-- Every id of the order is a key of the hash, and the event stored under it carries
that id. -/
def Integrity (m : TimelineModel) : Prop :=
  ∀ id ∈ m.eventOrder, ∃ e, m.events id = some e ∧ eventId e = id

/-- The plaintext object with the four envelope members set. -/
def overridden (e : EncryptedEvent) (members : List (String × Json)) : Json :=
  .obj (setMember "unsigned" e.unsigned_data.to_json
    (setMember "origin_server_ts" (.num e.origin_server_ts)
      (setMember "sender" (.str e.sender)
        (setMember "event_id" (.str e.event_id) members))))

/-- The ciphertext of the envelope decrypts and the plaintext is rebuilt into `doc`: the
session exists, its retrieval and the group decryption succeed, the plaintext is a json
text, and the envelope fields can be set on it. -/
def Reconstructs (c : Collaborators) (m : TimelineModel) (e : EncryptedEvent)
    (doc : Json) : Prop :=
  c.inboundMegolmSessionExists (sessionIndex m e) = .ok true
  ∧ ∃ session msg_str body,
      c.getInboundMegolmSession (sessionIndex m e) = .ok session
      ∧ c.decrypt_group_message session e.content.ciphertext = .ok msg_str
      ∧ c.parse msg_str = .ok body
      ∧ addMissingFields e body = .ok doc

/-! ## Concrete events and runs used in the examples -/

/-- A text message with the given id, sender and time. -/
def textEvent (id sender : String) (ts : Nat) : TimelineEvents :=
  { event_id := id, sender := sender, origin_server_ts := ts, content := .text "hi" "" }

/-- The timeline of room `!r` holding `$4` and `$5`. -/
def modelE4E5 : TimelineModel :=
  (TimelineModel.fresh "!r").addEvents
    { events := [textEvent "$4" "@a" 4000, textEvent "$5" "@a" 5000], prev_batch := "tok1" }

/-- The backward chunk `$3`, `$2`, `$1`, newest first. -/
def chunkE3E2E1 : Messages :=
  { chunk := [textEvent "$3" "@a" 3000, textEvent "$2" "@a" 2000, textEvent "$1" "@a" 1000],
    «end» := "tok2" }

/-- The timeline of room `!r` holding `$1`. -/
def modelE1 : TimelineModel :=
  (TimelineModel.fresh "!r").addEvents
    { events := [textEvent "$1" "@a" 1000], prev_batch := "tok1" }

/-- The backward chunk holding `$0`. -/
def chunkE0 : Messages := { chunk := [textEvent "$0" "@a" 900], «end» := "tok2" }

/-- A run with two `fetchHistory` calls in a row, a forward append, then a second
round after the successful answer. -/
def twoFetches : List Op :=
  [.fetchHistory, .fetchHistory,
   .addEvents { events := [textEvent "$1" "@a" 1000], prev_batch := "tok1" },
   .response 0 chunkE0 none, .fetchHistory, .fetchHistory]

/-- The world that `twoFetches` reaches. -/
def twoFetchesWorld : World :=
  { model := { ((({ TimelineModel.fresh "!r" with paginationInProgress := true }).addEvents
        { events := [textEvent "$1" "@a" 1000], prev_batch := "tok1" }).addBackwardsEvents
        chunkE0) with paginationInProgress := true }
    outstanding := [{ room_id := "!r", «from» := "tok2" }] }

/-- A run that uses every kind of step: a forward append, a request that fails, a
direct backward prepend, and a request that is answered. -/
def mixedRun : List Op :=
  [.addEvents { events := [textEvent "$4" "@a" 4000, textEvent "$5" "@a" 5000],
                prev_batch := "tok1" },
   .fetchHistory, .response 0 {} (some {}), .addBackwardsEvents chunkE3E2E1,
   .fetchHistory, .response 0 chunkE0 none]

/-- The world that `mixedRun` reaches. -/
def mixedRunWorld : World :=
  { model := ((modelE4E5.addBackwardsEvents chunkE3E2E1).addBackwardsEvents chunkE0)
    outstanding := [] }

/-! ## Concrete collaborators used in the examples -/

/-- A json text whose sender member claims `@mallory`. -/
def forgedPlaintext : String :=
  "\x7b\"type\":\"m.room.message\",\"sender\":\"@mallory\",\"body\":\"hello\"\x7d"

/-- The document that `forgedPlaintext` denotes. -/
def forgedDocument : Json :=
  .obj [("type", .str "m.room.message"), ("sender", .str "@mallory"), ("body", .str "hello")]

/-- The plaintext of an event type that the sample parser does not know. -/
def customPlaintext : String := "\x7b\"type\":\"org.example.custom\"\x7d"

/-- A json reader that knows three texts: the forged message, the array `[1]`, and an
object of a type no event parser knows; every other text is malformed. -/
def sampleJsonParse (text : String) : Except JsonException Json :=
  if text = forgedPlaintext then .ok forgedDocument
  else if text = "[1]" then .ok (.arr [.num 1])
  else if text = customPlaintext then
    .ok (.obj [("type", .str "org.example.custom")])
  else .error .parse_error

/-- An event parser that reads a text message from a one-element array: the envelope
fields from the members `event_id`, `sender`, `origin_server_ts`, the body from `body`. -/
def sampleParseTimelineEvents : Json → List TimelineEvents
  | .arr [doc] =>
    match doc.member "type", doc.member "event_id", doc.member "sender",
      doc.member "origin_server_ts", doc.member "body" with
    | some (.str "m.room.message"), some (.str id), some (.str sender), some (.num ts),
      some (.str body) =>
      [{ event_id := id, sender := sender, origin_server_ts := ts.toNat,
         content := .text body "" }]
    | _, _, _, _, _ => []
  | _ => []

/-- Collaborators with a session for every index except the session id `unknown`, and
a group decryption that returns the ciphertext itself as plaintext. -/
def sampleCollaborators : Collaborators :=
  { inboundMegolmSessionExists := fun index => .ok (decide (index.session_id ≠ "unknown"))
    getInboundMegolmSession := fun index => .ok { pickled := index.session_id }
    decrypt_group_message := fun _ ciphertext => .ok ciphertext
    parse := sampleJsonParse
    parse_timeline_events := sampleParseTimelineEvents
    tr := fun text => text }

/-- An envelope sent by `@alice` with the given session id and ciphertext. -/
def sampleEnvelope (session_id ciphertext : String) : EncryptedEvent :=
  { event_id := "$e", room_id := "!r", sender := "@alice", origin_server_ts := 1000,
    content := { ciphertext := ciphertext, session_id := session_id, sender_key := "k" } }

/-! ## Notions and examples for the forward append and the cursor -/

/-- Is the step a call of `addEvents`? -/
def Op.isAddEvents : Op → Bool
  | .addEvents _ => true
  | _ => false

/-- A view in the time zone UTC, with the user id as display name and no emoji
replacement. -/
def sampleView : ViewContext :=
  { startOfDay := fun ts => ((ts - ts % 86400000 : Nat) : Int)
    displayName := fun _ id => id
    replaceEmoji := fun text => text }

/-- The forward batch holding `$1` sent by `@a`. -/
def batchE1 : Timeline := { events := [textEvent "$1" "@a" 1000], prev_batch := "tok1" }

/-- A backward fetch that is answered before the first sync. -/
def fetchBeforeSync : List Op := [.fetchHistory, .response 0 chunkE0 none]

/-- The world that `fetchBeforeSync` reaches. -/
def fetchBeforeSyncWorld : World :=
  { model := ({ TimelineModel.fresh "!r" with paginationInProgress := true }).addBackwardsEvents
      chunkE0
    outstanding := [] }

/-! ## Examples for the section labels -/

/-- Three messages of `@A` and one of `@B`, all on the first day of the epoch. -/
def modelAAAB : TimelineModel :=
  (TimelineModel.fresh "!r").addEvents
    { events := [textEvent "$1" "@A" 1000, textEvent "$2" "@A" 2000,
                 textEvent "$3" "@A" 3000, textEvent "$4" "@B" 4000] }

/-- Two messages of `@a`, the second one a day after the first. -/
def modelTwoDays : TimelineModel :=
  (TimelineModel.fresh "!r").addEvents
    { events := [textEvent "$1" "@a" 1000, textEvent "$2" "@a" 86401000] }

/-- The same two messages of `@a` below a message of `@b`. -/
def modelThreeRows : TimelineModel :=
  (TimelineModel.fresh "!r").addEvents
    { events := [textEvent "$0" "@b" 500, textEvent "$1" "@a" 1000,
                 textEvent "$2" "@a" 86401000] }

/-! ## Notions and examples for the formatted body and the geometry -/

/-- The pattern occurs in the text. -/
def Occurs (pat s : List Char) : Prop := ∃ pre post, s = pre ++ pat ++ post

/-- The text `r` is the text `s` with the first occurrence of the pattern cut out, or
`s` itself when the pattern does not occur. -/
def CutFirst (pat s r : List Char) : Prop :=
  (¬ Occurs pat s ∧ r = s)
  ∨ ∃ pre post, s = pre ++ pat ++ post
      ∧ (∀ pre' post', s = pre' ++ pat ++ post' → pre.length ≤ pre'.length)
      ∧ r = pre ++ post

/-- A text message with the given formatted body. -/
def formattedEvent (formatted_body : String) : TimelineEvents :=
  { event_id := "$f", sender := "@a", origin_server_ts := 1000,
    content := .text "plain" formatted_body }

/-- A formatted body with two quoted blocks. -/
def twoReplies : String := "<mx-reply>a</mx-reply><mx-reply>b</mx-reply>c"

/-- A formatted body with one quoted block in front of the answer. -/
def oneReply : String := "<mx-reply><blockquote>q</blockquote></mx-reply>answer"

/-- An image message of the given height and width. -/
def imageEvent (h w : Nat) : TimelineEvents :=
  { event_id := "$i", sender := "@a", origin_server_ts := 1000,
    content := .image "pic" "mxc://pic" h w }

/-! ## Lemmas on the insert loop -/

theorem insertBatch_snd (h : QHash) (ids : List String) (evs : List TimelineEvents) :
    (insertBatch h ids evs).2 = ids ++ evs.map eventId := by
  induction evs generalizing h ids with
  | nil => simp [insertBatch]
  | cons e rest ih => simp [insertBatch, ih]

theorem insertBatch_fst (h : QHash) (ids : List String) (evs : List TimelineEvents)
    (k : String) :
    (insertBatch h ids evs).1 k = ((lastWithId k evs).orElse fun _ => h k) := by
  induction evs generalizing h ids with
  | nil => simp [insertBatch, lastWithId]
  | cons e rest ih =>
    rw [insertBatch, ih]
    unfold lastWithId
    rw [List.reverse_cons, List.find?_append]
    cases hrest : List.find? (fun e => decide (eventId e = k)) rest.reverse with
    | some x => simp
    | none =>
      by_cases hk : eventId e = k
      · simp [QHash.insert, hk]
      · have hk' : ¬ k = eventId e := fun h => hk h.symm
        simp [QHash.insert, hk, hk']

theorem lastWithId_mem {k : String} {evs : List TimelineEvents} {e : TimelineEvents}
    (h : lastWithId k evs = some e) : e ∈ evs ∧ eventId e = k := by
  unfold lastWithId at h
  have h1 := List.mem_of_find?_eq_some h
  have h2 := List.find?_some h
  exact ⟨by simpa using h1, by simpa using h2⟩

theorem lastWithId_isSome {k : String} {evs : List TimelineEvents}
    (h : k ∈ evs.map eventId) : ∃ e, lastWithId k evs = some e := by
  unfold lastWithId
  cases hf : List.find? (fun e => decide (eventId e = k)) evs.reverse with
  | some e => exact ⟨e, rfl⟩
  | none =>
    rw [List.find?_eq_none] at hf
    obtain ⟨e, he, hk⟩ := List.mem_map.1 h
    exact absurd (by simpa using hk) (hf e (by simpa using he))

theorem lastWithId_none {k : String} {evs : List TimelineEvents}
    (h : k ∉ evs.map eventId) : lastWithId k evs = none := by
  cases hl : lastWithId k evs with
  | none => rfl
  | some e =>
    obtain ⟨he, hk⟩ := lastWithId_mem hl
    exact absurd (List.mem_map.2 ⟨e, he, hk⟩) h

theorem addBackwardsEvents_eventOrder (m : TimelineModel) (msgs : Messages) :
    (m.addBackwardsEvents msgs).eventOrder = (msgs.chunk.map eventId).reverse ++ m.eventOrder := by
  simp [TimelineModel.addBackwardsEvents, insertBatch_snd]

theorem addBackwardsEvents_events (m : TimelineModel) (msgs : Messages) (k : String) :
    (m.addBackwardsEvents msgs).events k
      = ((lastWithId k msgs.chunk).orElse fun _ => m.events k) := by
  simp [TimelineModel.addBackwardsEvents, insertBatch_fst]

theorem addEvents_eventOrder (m : TimelineModel) (timeline : Timeline) :
    (m.addEvents timeline).eventOrder = m.eventOrder ++ timeline.events.map eventId := by
  unfold TimelineModel.addEvents
  cases hev : timeline.events with
  | nil => cases m.isInitialSync <;> simp
  | cons e rest => cases m.isInitialSync <;> simp [insertBatch_snd]

theorem addEvents_events (m : TimelineModel) (timeline : Timeline) (k : String) :
    (m.addEvents timeline).events k
      = ((lastWithId k timeline.events).orElse fun _ => m.events k) := by
  unfold TimelineModel.addEvents
  cases hev : timeline.events with
  | nil => cases m.isInitialSync <;> simp [lastWithId]
  | cons e rest => cases m.isInitialSync <;> simp [insertBatch_fst]

/-! ## C1: a backward chunk is prepended in reverse -/

/-- C1. For every timeline state and every backward chunk (newest first), after
`addBackwardsEvents` the order is the reversed ids of the chunk followed by the old
order, and the hash maps the id of every event of the chunk to the event of the chunk
with that id: to the last one carrying the id, which is the event itself whenever no
other event of the chunk shares its id. -/
theorem addBackwardsEvents_reverses_chunk (m : TimelineModel) (msgs : Messages) :
    (m.addBackwardsEvents msgs).eventOrder = (msgs.chunk.map eventId).reverse ++ m.eventOrder
    ∧ (∀ e ∈ msgs.chunk, ∃ e' ∈ msgs.chunk, eventId e' = eventId e ∧
        lastWithId (eventId e) msgs.chunk = some e' ∧
        (m.addBackwardsEvents msgs).events (eventId e) = some e')
    ∧ (∀ e ∈ msgs.chunk, (∀ e' ∈ msgs.chunk, eventId e' = eventId e → e' = e) →
        (m.addBackwardsEvents msgs).events (eventId e) = some e) := by
  have key : ∀ e ∈ msgs.chunk, ∃ e' ∈ msgs.chunk, eventId e' = eventId e ∧
      lastWithId (eventId e) msgs.chunk = some e' ∧
      (m.addBackwardsEvents msgs).events (eventId e) = some e' := by
    intro e he
    obtain ⟨e', he'⟩ := lastWithId_isSome (List.mem_map.2 ⟨e, he, rfl⟩)
    obtain ⟨hmem, hid⟩ := lastWithId_mem he'
    refine ⟨e', hmem, hid, he', ?_⟩
    rw [addBackwardsEvents_events, he']
    rfl
  refine ⟨addBackwardsEvents_eventOrder m msgs, key, ?_⟩
  intro e he huniq
  obtain ⟨e', hmem, hid, _, hev⟩ := key e he
  rw [hev, huniq e' hmem hid]

/-- C1, the two examples: the chunk `$3, $2, $1` prepended to `$4, $5` gives
`$1, $2, $3, $4, $5` with every id of the chunk mapped to its event, and the chunk `$0`
prepended to `$1` gives `$0, $1` with two rows. -/
theorem addBackwardsEvents_reverses_chunk_witness :
    modelE4E5.eventOrder = ["$4", "$5"]
    ∧ (modelE4E5.addBackwardsEvents chunkE3E2E1).eventOrder = ["$1", "$2", "$3", "$4", "$5"]
    ∧ (modelE4E5.addBackwardsEvents chunkE3E2E1).events "$3" = some (textEvent "$3" "@a" 3000)
    ∧ (modelE4E5.addBackwardsEvents chunkE3E2E1).events "$2" = some (textEvent "$2" "@a" 2000)
    ∧ (modelE4E5.addBackwardsEvents chunkE3E2E1).events "$1" = some (textEvent "$1" "@a" 1000)
    ∧ modelE1.eventOrder = ["$1"]
    ∧ (modelE1.addBackwardsEvents chunkE0).eventOrder = ["$0", "$1"]
    ∧ (modelE1.addBackwardsEvents chunkE0).rowCount = 2 := by
  have h := addBackwardsEvents_reverses_chunk modelE4E5 chunkE3E2E1
  have h0 := addBackwardsEvents_reverses_chunk modelE1 chunkE0
  have huniq : ∀ e ∈ chunkE3E2E1.chunk, ∀ e' ∈ chunkE3E2E1.chunk,
      eventId e' = eventId e → e' = e := by decide
  refine ⟨by decide, by simpa [chunkE3E2E1, modelE4E5, TimelineModel.fresh,
      TimelineModel.addEvents, insertBatch, eventId, textEvent] using h.1,
    h.2.2 (textEvent "$3" "@a" 3000) (by simp [chunkE3E2E1]) (huniq _ (by simp [chunkE3E2E1])),
    h.2.2 (textEvent "$2" "@a" 2000) (by simp [chunkE3E2E1]) (huniq _ (by simp [chunkE3E2E1])),
    h.2.2 (textEvent "$1" "@a" 1000) (by simp [chunkE3E2E1]) (huniq _ (by simp [chunkE3E2E1])),
    by decide, ?_, ?_⟩
  · simpa [chunkE0, modelE1, TimelineModel.fresh, TimelineModel.addEvents, insertBatch,
      eventId, textEvent] using h0.1
  · rw [TimelineModel.rowCount, h0.1]
    decide

/-! ## C2: a failed response -/

/-- C2. On a fresh timeline of room `!r`, `fetchHistory` issues one request and sets
`paginationInProgress`; when the transport answers it with an error, the callback
changes nothing: `paginationInProgress` is still `true`, and the next `fetchHistory`
issues no request. A successful answer with an empty chunk does clear the flag, and
the next `fetchHistory` issues a request. -/
theorem failed_response_keeps_paginationInProgress :
    ((TimelineModel.fresh "!r").fetchHistory).2 = some { room_id := "!r", «from» := "" }
    ∧ ((TimelineModel.fresh "!r").fetchHistory).1.paginationInProgress = true
    ∧ (((TimelineModel.fresh "!r").fetchHistory).1.messagesCallback {}
        (some { errcode := "M_UNKNOWN", error := "timeout" })).paginationInProgress = true
    ∧ ((((TimelineModel.fresh "!r").fetchHistory).1.messagesCallback {}
        (some { errcode := "M_UNKNOWN", error := "timeout" })).fetchHistory).2 = none
    ∧ (((TimelineModel.fresh "!r").fetchHistory).1.messagesCallback {}
        none).paginationInProgress = false
    ∧ ((((TimelineModel.fresh "!r").fetchHistory).1.messagesCallback {}
        none).fetchHistory).2 = some { room_id := "!r", «from» := "" } := by
  decide

/-! ## C3: at most one request is outstanding -/

theorem addEvents_paginationInProgress (m : TimelineModel) (timeline : Timeline) :
    (m.addEvents timeline).paginationInProgress = m.paginationInProgress := by
  unfold TimelineModel.addEvents
  cases m.isInitialSync <;> cases timeline.events <;> simp

theorem fetchHistory_noop (m : TimelineModel) (h : m.paginationInProgress = true) :
    m.fetchHistory = (m, none) := by
  simp [TimelineModel.fetchHistory, h]

theorem singleFlight_step {w w' : World} {op : Op} (hinv : SingleFlight w)
    (hop : op.viaTransport = true) (hstep : w.step op = some w') : SingleFlight w' := by
  unfold SingleFlight at *
  cases op with
  | addEvents timeline =>
    simp only [World.step, Option.some.injEq] at hstep
    subst hstep
    simpa [addEvents_paginationInProgress] using hinv
  | addBackwardsEvents msgs => simp [Op.viaTransport] at hop
  | fetchHistory =>
    by_cases hflag : w.model.paginationInProgress = true
    · simp only [World.step, fetchHistory_noop _ hflag, Option.some.injEq] at hstep
      subst hstep
      simpa using hinv
    · simp only [Bool.not_eq_true] at hflag
      simp only [World.step, TimelineModel.fetchHistory, hflag, Bool.false_eq_true,
        if_false, Option.some.injEq] at hstep
      subst hstep
      simp only [hflag, Bool.false_eq_true, if_false, Nat.le_zero, List.length_eq_zero]
        at hinv
      simp [hinv]
  | response i res err =>
    simp only [World.step] at hstep
    split at hstep
    · rename_i hi
      simp only [Option.some.injEq] at hstep
      subst hstep
      have hlen : w.outstanding.length ≤ 1 := by
        split at hinv <;> omega
      simp only [List.length_eraseIdx, hi, if_true]
      omega
    · simp at hstep

theorem singleFlight_run {w w' : World} {ops : List Op} (hinv : SingleFlight w)
    (hops : ∀ op ∈ ops, op.viaTransport = true) (hrun : w.run ops = some w') :
    SingleFlight w' := by
  induction ops generalizing w with
  | nil =>
    simp only [World.run, Option.some.injEq] at hrun
    subst hrun
    exact hinv
  | cons op ops ih =>
    simp only [World.run] at hrun
    cases hstep : w.step op with
    | none => simp [hstep] at hrun
    | some w1 =>
      simp only [hstep, Option.some_bind] at hrun
      exact ih (singleFlight_step hinv (hops op (List.mem_cons_self _ _)) hstep)
        (fun o ho => hops o (List.mem_cons_of_mem _ ho)) hrun

/-- C3. In every state reached from a fresh timeline by `fetchHistory` calls, forward
appends and answers (successful or failed) to issued requests, at most one request is
outstanding, a request is outstanding only while `paginationInProgress` is set, and a
`fetchHistory` call made while `paginationInProgress` is set issues no request and
leaves the model (order, hash, token, flag) and the outstanding requests unchanged. -/
theorem single_flight_pagination (room_id : String) (ops : List Op) (w : World)
    (hops : ∀ op ∈ ops, op.viaTransport = true)
    (hrun : (World.fresh room_id).run ops = some w) :
    w.outstanding.length ≤ 1
    ∧ (w.outstanding ≠ [] → w.model.paginationInProgress = true)
    ∧ (w.model.paginationInProgress = true →
        w.model.fetchHistory = (w.model, none) ∧ w.step .fetchHistory = some w) := by
  have hinv : SingleFlight w :=
    singleFlight_run (by simp [SingleFlight, World.fresh]) hops hrun
  unfold SingleFlight at hinv
  refine ⟨by split at hinv <;> omega, ?_, ?_⟩
  · intro hne
    by_contra hflag
    simp only [Bool.not_eq_true] at hflag
    simp only [hflag, Bool.false_eq_true, if_false, Nat.le_zero, List.length_eq_zero]
      at hinv
    exact hne hinv
  · intro hflag
    refine ⟨fetchHistory_noop _ hflag, ?_⟩
    simp [World.step, fetchHistory_noop _ hflag]

/-- C3 at the run `twoFetches`: the second call of each pair issues nothing, so one
request (from `tok2`) is outstanding at the end. -/
theorem single_flight_pagination_witness :
    (World.fresh "!r").run twoFetches = some twoFetchesWorld
    ∧ twoFetchesWorld.outstanding.length ≤ 1
    ∧ (twoFetchesWorld.outstanding ≠ [] → twoFetchesWorld.model.paginationInProgress = true)
    ∧ (twoFetchesWorld.model.paginationInProgress = true →
        twoFetchesWorld.model.fetchHistory = (twoFetchesWorld.model, none)
        ∧ twoFetchesWorld.step .fetchHistory = some twoFetchesWorld) :=
  ⟨rfl, single_flight_pagination "!r" twoFetches twoFetchesWorld (by decide) rfl⟩

/-! ## C4: identifiers in the order -/

theorem storeOp_apply_eventOrder (m : TimelineModel) (op : StoreOp) :
    (op.apply m).eventOrder.Perm (m.eventOrder ++ op.ids) := by
  cases op with
  | forward timeline =>
    simp only [StoreOp.apply, StoreOp.ids, addEvents_eventOrder]
    exact List.Perm.refl _
  | backward msgs =>
    simp only [StoreOp.apply, StoreOp.ids, addBackwardsEvents_eventOrder]
    exact (List.perm_append_comm).trans
      (List.Perm.append_left _ (List.reverse_perm _))

theorem applyStoreOps_eventOrder (m : TimelineModel) (ops : List StoreOp) :
    (applyStoreOps m ops).eventOrder.Perm (m.eventOrder ++ ops.flatMap StoreOp.ids) := by
  induction ops generalizing m with
  | nil => simp [applyStoreOps]
  | cons op ops ih =>
    have h1 := ih (op.apply m)
    have h2 := (storeOp_apply_eventOrder m op).append_right (ops.flatMap StoreOp.ids)
    simp only [applyStoreOps, List.foldl_cons, List.flatMap_cons] at *
    rw [← List.append_assoc]
    exact h1.trans h2

/-- C4, the counterexample: the same event `$1` delivered by two forward appends is in
the order twice. -/
theorem order_duplicate_after_two_appends :
    (applyStoreOps (TimelineModel.fresh "!r")
      [.forward { events := [textEvent "$1" "@a" 1000] },
       .forward { events := [textEvent "$1" "@a" 1000] }]).eventOrder = ["$1", "$1"]
    ∧ ¬ (applyStoreOps (TimelineModel.fresh "!r")
      [.forward { events := [textEvent "$1" "@a" 1000] },
       .forward { events := [textEvent "$1" "@a" 1000] }]).eventOrder.Nodup := by
  decide

/-- C4, as amended. After any sequence of `addEvents` and `addBackwardsEvents` calls on a
fresh timeline the order holds exactly the identifiers that the calls delivered, each as
often as it was delivered; so the order contains no identifier twice if and only if no
identifier was delivered twice. -/
theorem order_nodup_iff_delivered_nodup (room_id : String) (ops : List StoreOp) :
    (applyStoreOps (TimelineModel.fresh room_id) ops).eventOrder.Perm
        (ops.flatMap StoreOp.ids)
    ∧ ((applyStoreOps (TimelineModel.fresh room_id) ops).eventOrder.Nodup
        ↔ (ops.flatMap StoreOp.ids).Nodup) := by
  have h := applyStoreOps_eventOrder (TimelineModel.fresh room_id) ops
  simp only [TimelineModel.fresh, List.nil_append] at h
  exact ⟨h, h.nodup_iff⟩

/-! ## C5: timestamps along the order -/

theorem lastWithId_of_nodup {evs : List TimelineEvents} (hnd : (evs.map eventId).Nodup)
    {e : TimelineEvents} (he : e ∈ evs) : lastWithId (eventId e) evs = some e := by
  obtain ⟨e', he'⟩ := lastWithId_isSome (List.mem_map.2 ⟨e, he, rfl⟩)
  obtain ⟨hmem, hid⟩ := lastWithId_mem he'
  rw [he', List.inj_on_of_nodup_map hnd hmem he hid]

/-- The timestamps along the order after new events were put into the hash. -/
theorem tsAt_after_insert (old events : QHash) (evs : List TimelineEvents)
    (order : List String)
    (hev : ∀ k, events k = ((lastWithId k evs).orElse fun _ => old k))
    (hfresh : ∀ id ∈ evs.map eventId, id ∉ order) (hnd : (evs.map eventId).Nodup) :
    (order.map fun id => eventTimestamp (QHash.value events id))
        = order.map (fun id => eventTimestamp (QHash.value old id))
    ∧ ((evs.map eventId).map fun id => eventTimestamp (QHash.value events id))
        = evs.map eventTimestamp := by
  constructor
  · apply List.map_congr_left
    intro id hid
    have hnone : lastWithId id evs = none :=
      lastWithId_none fun hmem => hfresh id hmem hid
    simp [QHash.value, hev, hnone]
  · rw [List.map_map]
    apply List.map_congr_left
    intro e he
    simp [QHash.value, hev, lastWithId_of_nodup hnd he]

theorem chronological_apply {m : TimelineModel} {op : StoreOp} (hm : Chronological m)
    (hop : op.inOrder m) : Chronological (op.apply m) := by
  unfold Chronological at *
  cases op with
  | forward timeline =>
    obtain ⟨hfresh, hnd, hsorted, hbound⟩ := hop
    obtain ⟨h1, h2⟩ := tsAt_after_insert m.events (m.addEvents timeline).events
      timeline.events m.eventOrder (addEvents_events m timeline) hfresh hnd
    simp only [StoreOp.apply, addEvents_eventOrder, List.map_append]
    unfold tsAt
    rw [h1, h2, List.pairwise_append]
    refine ⟨hm, hsorted, ?_⟩
    intro a ha b hb
    obtain ⟨id, hid, rfl⟩ := List.mem_map.1 ha
    obtain ⟨e, he, rfl⟩ := List.mem_map.1 hb
    exact hbound id hid e he
  | backward msgs =>
    obtain ⟨hfresh, hnd, hsorted, hbound⟩ := hop
    obtain ⟨h1, h2⟩ := tsAt_after_insert m.events
      (m.addBackwardsEvents msgs).events msgs.chunk m.eventOrder
      (addBackwardsEvents_events m msgs) hfresh hnd
    simp only [StoreOp.apply, addBackwardsEvents_eventOrder, List.map_append,
      List.map_reverse]
    unfold tsAt
    rw [h1, h2, List.pairwise_append, List.pairwise_reverse]
    refine ⟨hsorted, hm, ?_⟩
    intro a ha b hb
    obtain ⟨e, he, rfl⟩ := List.mem_map.1 (List.mem_reverse.1 ha)
    obtain ⟨id, hid, rfl⟩ := List.mem_map.1 hb
    exact hbound e he id hid

theorem chronological_run {m : TimelineModel} {ops : List StoreOp} (hm : Chronological m)
    (hops : runInOrder m ops) : Chronological (applyStoreOps m ops) := by
  induction ops generalizing m with
  | nil => simpa [applyStoreOps] using hm
  | cons op ops ih =>
    simp only [applyStoreOps, List.foldl_cons]
    exact ih (chronological_apply hm hops.1) hops.2

/-- C5, the counterexample: two forward appends, the second carrying an event with an
earlier origin timestamp than the first (`$2` at 900 after `$1` at 1000), leave the
order `$1, $2`, which is decreasing by timestamp. -/
theorem order_not_chronological_after_skewed_append :
    (applyStoreOps (TimelineModel.fresh "!r")
      [.forward { events := [textEvent "$1" "@a" 1000] },
       .forward { events := [textEvent "$2" "@b" 900] }]).eventOrder = ["$1", "$2"]
    ∧ ¬ Chronological (applyStoreOps (TimelineModel.fresh "!r")
      [.forward { events := [textEvent "$1" "@a" 1000] },
       .forward { events := [textEvent "$2" "@b" 900] }]) := by
  unfold Chronological
  decide

/-- C5, as amended. For a sequence of forward appends and backward prepends on a fresh
timeline in which every call delivers new, pairwise distinct ids, every forward batch
is oldest first and not older than the events already in the order, and every backward
chunk is newest first and not newer than the events already in the order, the
resulting order is non-decreasing by origin timestamp. -/
theorem order_chronological_of_runInOrder (room_id : String) (ops : List StoreOp)
    (hops : runInOrder (TimelineModel.fresh room_id) ops) :
    Chronological (applyStoreOps (TimelineModel.fresh room_id) ops) :=
  chronological_run (by simp [Chronological, TimelineModel.fresh]) hops

/-- C5 as amended, at the run that appends `$4, $5` and then prepends the chunk
`$3, $2, $1`. -/
theorem order_chronological_of_runInOrder_witness :
    runInOrder (TimelineModel.fresh "!r")
      [.forward { events := [textEvent "$4" "@a" 4000, textEvent "$5" "@a" 5000] },
       .backward chunkE3E2E1]
    ∧ Chronological (applyStoreOps (TimelineModel.fresh "!r")
      [.forward { events := [textEvent "$4" "@a" 4000, textEvent "$5" "@a" 5000] },
       .backward chunkE3E2E1]) := by
  have hrun : runInOrder (TimelineModel.fresh "!r")
      [.forward { events := [textEvent "$4" "@a" 4000, textEvent "$5" "@a" 5000] },
       .backward chunkE3E2E1] := by
    unfold runInOrder runInOrder runInOrder StoreOp.inOrder
    decide
  exact ⟨hrun, order_chronological_of_runInOrder "!r" _ hrun⟩

/-! ## C6: every id of the order resolves in the hash -/

theorem integrity_after_insert {old events : QHash} {evs : List TimelineEvents}
    {order : List String}
    (hev : ∀ k, events k = ((lastWithId k evs).orElse fun _ => old k))
    (hold : ∀ id ∈ order, ∃ e, old id = some e ∧ eventId e = id) :
    ∀ id, (id ∈ order ∨ id ∈ evs.map eventId) → ∃ e, events id = some e ∧ eventId e = id := by
  intro id hid
  rw [hev]
  cases hl : lastWithId id evs with
  | some e => exact ⟨e, rfl, (lastWithId_mem hl).2⟩
  | none =>
    rcases hid with hid | hid
    · simpa using hold id hid
    · obtain ⟨e, he⟩ := lastWithId_isSome hid
      simp [he] at hl

theorem integrity_addEvents {m : TimelineModel} (hm : Integrity m) (timeline : Timeline) :
    Integrity (m.addEvents timeline) := by
  intro id hid
  rw [addEvents_eventOrder, List.mem_append] at hid
  exact integrity_after_insert (addEvents_events m timeline) hm id hid

theorem integrity_addBackwardsEvents {m : TimelineModel} (hm : Integrity m)
    (msgs : Messages) : Integrity (m.addBackwardsEvents msgs) := by
  intro id hid
  rw [addBackwardsEvents_eventOrder, List.mem_append, List.mem_reverse] at hid
  exact integrity_after_insert (addBackwardsEvents_events m msgs) hm id hid.symm

theorem integrity_step {w w' : World} {op : Op} (hinv : Integrity w.model)
    (hstep : w.step op = some w') : Integrity w'.model := by
  cases op with
  | addEvents timeline =>
    simp only [World.step, Option.some.injEq] at hstep
    subst hstep
    exact integrity_addEvents hinv timeline
  | addBackwardsEvents msgs =>
    simp only [World.step, Option.some.injEq] at hstep
    subst hstep
    exact integrity_addBackwardsEvents hinv msgs
  | fetchHistory =>
    by_cases hflag : w.model.paginationInProgress = true
    · simp only [World.step, fetchHistory_noop _ hflag, Option.some.injEq] at hstep
      subst hstep
      exact hinv
    · simp only [Bool.not_eq_true] at hflag
      simp only [World.step, TimelineModel.fetchHistory, hflag, Bool.false_eq_true,
        if_false, Option.some.injEq] at hstep
      subst hstep
      exact hinv
  | response i res err =>
    simp only [World.step] at hstep
    split at hstep
    · simp only [Option.some.injEq] at hstep
      subst hstep
      cases err with
      | none => exact integrity_addBackwardsEvents hinv res
      | some _ => exact hinv
    · simp at hstep

theorem integrity_run {w w' : World} {ops : List Op} (hinv : Integrity w.model)
    (hrun : w.run ops = some w') : Integrity w'.model := by
  induction ops generalizing w with
  | nil =>
    simp only [World.run, Option.some.injEq] at hrun
    subst hrun
    exact hinv
  | cons op ops ih =>
    simp only [World.run] at hrun
    cases hstep : w.step op with
    | none => simp [hstep] at hrun
    | some w1 =>
      simp only [hstep, Option.some_bind] at hrun
      exact ih (integrity_step hinv hstep) hrun

/-- C6. In every state reached from a fresh timeline by `addEvents`,
`addBackwardsEvents`, `fetchHistory` and the delivery of responses, every id of the
order is a key of the hash, and the event that `events.value` returns for it is the
stored one and carries that id as its event id. -/
theorem referential_integrity (room_id : String) (ops : List Op) (w : World)
    (hrun : (World.fresh room_id).run ops = some w) :
    ∀ id ∈ w.model.eventOrder,
      w.model.events.contains id = true
      ∧ w.model.events id = some (w.model.events.value id)
      ∧ eventId (w.model.events.value id) = id := by
  have hinv : Integrity w.model :=
    integrity_run (w := World.fresh room_id)
      (by simp [Integrity, World.fresh, TimelineModel.fresh]) hrun
  intro id hid
  obtain ⟨e, he, heid⟩ := hinv id hid
  simp [QHash.contains, QHash.value, he, heid]

/-- C6 at the run `mixedRun`, which ends with the order `$0, $1, $2, $3, $4, $5`. -/
theorem referential_integrity_witness :
    (World.fresh "!r").run mixedRun = some mixedRunWorld
    ∧ mixedRunWorld.model.eventOrder = ["$0", "$1", "$2", "$3", "$4", "$5"]
    ∧ ∀ id ∈ mixedRunWorld.model.eventOrder,
      mixedRunWorld.model.events.contains id = true
      ∧ mixedRunWorld.model.events id = some (mixedRunWorld.model.events.value id)
      ∧ eventId (mixedRunWorld.model.events.value id) = id :=
  ⟨rfl, by decide, referential_integrity "!r" mixedRun mixedRunWorld rfl⟩

/-! ## C7: no session for the index -/

/-- C7. For every envelope, whenever the cache reports that no inbound session exists
for the index (room id of the timeline, session id and sender key of the envelope),
`decryptEvent` returns without an exception, with `success = false` and a notice
whose id, sender and origin timestamp are those of the envelope and whose body is the
translated "no keys found" text; the result is the same for any other retrieval,
group decryption, json reader and event parser. -/
theorem decryptEvent_no_session (c : Collaborators) (m : TimelineModel) (e : EncryptedEvent)
    (hnone : c.inboundMegolmSessionExists
      { room_id := m.room_id_, session_id := e.content.session_id,
        sender_key := e.content.sender_key } = .ok false) :
    (∃ r, m.decryptEvent c e = .ok r
      ∧ r.success = false
      ∧ r.event.content = .notice (c.tr "-- Encrypted Event (No keys found for decryption) --") ""
      ∧ r.event.event_id = e.event_id
      ∧ r.event.sender = e.sender
      ∧ r.event.origin_server_ts = e.origin_server_ts)
    ∧ ∀ (getSession : MegolmSessionIndex → Except LmdbError InboundGroupSession)
        (decrypt : InboundGroupSession → String → Except OlmException String)
        (parse : String → Except JsonException Json)
        (parseEvents : Json → List TimelineEvents),
        m.decryptEvent { c with getInboundMegolmSession := getSession,
                                decrypt_group_message := decrypt,
                                parse := parse,
                                parse_timeline_events := parseEvents } e
          = m.decryptEvent c e := by
  have hc : m.decryptEvent c e = .ok ⟨dummyNotice e (c.tr noKeysText), false⟩ := by
    simp only [TimelineModel.decryptEvent, eventArray, sessionIndex, hnone]
    rfl
  refine ⟨⟨_, hc, rfl, rfl, rfl, rfl, rfl⟩, ?_⟩
  intro getSession decrypt parse parseEvents
  rw [hc]
  simp only [TimelineModel.decryptEvent, eventArray, sessionIndex, hnone]
  rfl

/-- C7 at the envelope with the session id `unknown`, for which the sample cache has no
session. -/
theorem decryptEvent_no_session_witness :
    sampleCollaborators.inboundMegolmSessionExists
      { room_id := (TimelineModel.fresh "!r").room_id_,
        session_id := (sampleEnvelope "unknown" forgedPlaintext).content.session_id,
        sender_key := (sampleEnvelope "unknown" forgedPlaintext).content.sender_key }
      = .ok false
    ∧ ∃ r, (TimelineModel.fresh "!r").decryptEvent sampleCollaborators
        (sampleEnvelope "unknown" forgedPlaintext) = .ok r
      ∧ r.success = false
      ∧ r.event.content = .notice "-- Encrypted Event (No keys found for decryption) --" ""
      ∧ r.event.event_id = "$e"
      ∧ r.event.sender = "@alice"
      ∧ r.event.origin_server_ts = 1000 :=
  ⟨rfl, (decryptEvent_no_session sampleCollaborators (TimelineModel.fresh "!r")
    (sampleEnvelope "unknown" forgedPlaintext) rfl).1⟩

/-! ## C8: exceptions of the json library -/

theorem eventArray_decrypted {c : Collaborators} {m : TimelineModel} {e : EncryptedEvent}
    {session : InboundGroupSession} {msg_str : String}
    (hexists : c.inboundMegolmSessionExists (sessionIndex m e) = .ok true)
    (hsession : c.getInboundMegolmSession (sessionIndex m e) = .ok session)
    (hdecrypt : c.decrypt_group_message session e.content.ciphertext = .ok msg_str) :
    eventArray c m e
      = (c.parse msg_str >>= fun body => addMissingFields e body >>= fun body =>
          pure (.inr (.arr [body]))) := by
  simp only [eventArray, hexists, hsession, hdecrypt]

/-- C8. With a session present and a group decryption that succeeds, a plaintext that
is no json text makes `json::parse` throw `parse_error`, and a plaintext that is the
json array `[1]` makes the assignment of `event_id` throw `type_error`; neither is
caught, so the exception leaves `decryptEvent` and no result is returned. -/
theorem decryptEvent_json_exception_escapes :
    (TimelineModel.fresh "!r").decryptEvent sampleCollaborators
        (sampleEnvelope "s1" "not json") = .error .parse_error
    ∧ (TimelineModel.fresh "!r").decryptEvent sampleCollaborators
        (sampleEnvelope "s1" "[1]") = .error .type_error := by
  constructor <;> rfl

/-! ## C9: the envelope overrides the metadata of the plaintext -/

theorem getMember_setMember_same (k : String) (v : Json) (members : List (String × Json)) :
    getMember k (setMember k v members) = some v := by
  induction members with
  | nil => simp [setMember, getMember]
  | cons kv rest ih =>
    obtain ⟨k', v'⟩ := kv
    by_cases hk : k' = k
    · simp [setMember, getMember, hk]
    · simp [setMember, getMember, hk, ih]

theorem getMember_setMember_other {k k' : String} (hne : k' ≠ k) (v : Json)
    (members : List (String × Json)) :
    getMember k' (setMember k v members) = getMember k' members := by
  induction members with
  | nil =>
    have hne' : ¬ k = k' := fun h => hne h.symm
    simp [setMember, getMember, hne']
  | cons kv rest ih =>
    obtain ⟨k1, v1⟩ := kv
    by_cases hk : k1 = k
    · have h1 : ¬ k1 = k' := fun h => hne (h.symm.trans hk)
      have h2 : ¬ k = k' := fun h => hne h.symm
      simp [setMember, getMember, hk, h2]
    · by_cases hk' : k1 = k'
      · subst hk'
        simp [setMember, getMember, hk]
      · simp [setMember, getMember, hk, hk', ih]

theorem addMissingFields_obj (e : EncryptedEvent) (members : List (String × Json)) :
    addMissingFields e (.obj members) = .ok (overridden e members) := rfl

theorem decryptEvent_decrypted {c : Collaborators} {m : TimelineModel} {e : EncryptedEvent}
    {session : InboundGroupSession} {msg_str : String} {body doc : Json}
    (hexists : c.inboundMegolmSessionExists (sessionIndex m e) = .ok true)
    (hsession : c.getInboundMegolmSession (sessionIndex m e) = .ok session)
    (hdecrypt : c.decrypt_group_message session e.content.ciphertext = .ok msg_str)
    (hparse : c.parse msg_str = .ok body) (hdoc : addMissingFields e body = .ok doc) :
    eventArray c m e = .ok (.inr (.arr [doc]))
    ∧ m.decryptEvent c e = .ok (parsedResult c e (c.parse_timeline_events (.arr [doc]))) := by
  have harr : eventArray c m e = .ok (.inr (.arr [doc])) := by
    rw [eventArray_decrypted hexists hsession hdecrypt, hparse]
    show (addMissingFields e body >>= fun body => pure (Sum.inr (Json.arr [body]))) = _
    rw [hdoc]
    rfl
  refine ⟨harr, ?_⟩
  unfold TimelineModel.decryptEvent
  rw [harr]
  rfl

/-- C9. For every envelope whose ciphertext decrypts to a plaintext that is a json
object, the array handed to the event parser holds one document: the plaintext object
with `event_id`, `sender`, `origin_server_ts` and `unsigned` set to the values of the
envelope. The four members read back as the envelope's values whatever the plaintext
carried for them, every other member reads as in the plaintext, and the result of
`decryptEvent` is what the parser makes of that document; hence, for a parser that
takes the sender of an event from the `sender` member, a typed event that is returned
has the sender of the envelope. -/
theorem decrypted_metadata_override (c : Collaborators) (m : TimelineModel)
    (e : EncryptedEvent) (session : InboundGroupSession) (msg_str : String)
    (members : List (String × Json))
    (hexists : c.inboundMegolmSessionExists (sessionIndex m e) = .ok true)
    (hsession : c.getInboundMegolmSession (sessionIndex m e) = .ok session)
    (hdecrypt : c.decrypt_group_message session e.content.ciphertext = .ok msg_str)
    (hparse : c.parse msg_str = .ok (.obj members)) :
    eventArray c m e = .ok (.inr (.arr [overridden e members]))
    ∧ m.decryptEvent c e
        = .ok (parsedResult c e (c.parse_timeline_events (.arr [overridden e members])))
    ∧ (overridden e members).member "event_id" = some (.str e.event_id)
    ∧ (overridden e members).member "sender" = some (.str e.sender)
    ∧ (overridden e members).member "origin_server_ts" = some (.num e.origin_server_ts)
    ∧ (overridden e members).member "unsigned" = some e.unsigned_data.to_json
    ∧ (∀ k, k ≠ "event_id" → k ≠ "sender" → k ≠ "origin_server_ts" → k ≠ "unsigned" →
        (overridden e members).member k = getMember k members)
    ∧ ((∀ doc ev, c.parse_timeline_events (.arr [doc]) = [ev] →
          doc.member "sender" = some (.str ev.sender)) →
        ∀ ev, m.decryptEvent c e = .ok ⟨ev, true⟩ → ev.sender = e.sender) := by
  obtain ⟨harr, hres⟩ :=
    decryptEvent_decrypted hexists hsession hdecrypt hparse (addMissingFields_obj e members)
  have hsender : (overridden e members).member "sender" = some (.str e.sender) := by
    simp only [overridden, Json.member]
    rw [getMember_setMember_other (by decide), getMember_setMember_other (by decide),
      getMember_setMember_same]
  refine ⟨harr, hres, ?_, hsender, ?_, ?_, ?_, ?_⟩
  · simp only [overridden, Json.member]
    rw [getMember_setMember_other (by decide), getMember_setMember_other (by decide),
      getMember_setMember_other (by decide), getMember_setMember_same]
  · simp only [overridden, Json.member]
    rw [getMember_setMember_other (by decide), getMember_setMember_same]
  · simp only [overridden, Json.member]
    rw [getMember_setMember_same]
  · intro k h1 h2 h3 h4
    simp only [overridden, Json.member]
    rw [getMember_setMember_other h4, getMember_setMember_other h3,
      getMember_setMember_other h2, getMember_setMember_other h1]
  · intro hparser ev hev
    rw [hres] at hev
    cases hlist : c.parse_timeline_events (.arr [overridden e members]) with
    | nil => simp [hlist, parsedResult] at hev
    | cons ev1 rest =>
      cases rest with
      | cons ev2 rest2 => simp [hlist, parsedResult] at hev
      | nil =>
        simp only [hlist, parsedResult, Except.ok.injEq, DecryptionResult.mk.injEq,
          and_true] at hev
        subst hev
        have h := hparser _ _ hlist
        rw [hsender] at h
        simp only [Option.some.injEq, Json.str.injEq] at h
        exact h.symm

theorem sampleParseTimelineEvents_sender (doc : Json) (ev : TimelineEvents)
    (h : sampleParseTimelineEvents (.arr [doc]) = [ev]) :
    doc.member "sender" = some (.str ev.sender) := by
  simp only [sampleParseTimelineEvents] at h
  split at h
  · rename_i hsender _ _
    simp only [List.cons.injEq, and_true] at h
    subst h
    exact hsender
  · simp at h

/-- C9 at the envelope of `@alice` whose plaintext claims the sender `@mallory`: the
typed event that `decryptEvent` returns is a text message sent by `@alice`. -/
theorem decrypted_metadata_override_witness :
    getMember "sender" [("type", Json.str "m.room.message"), ("sender", .str "@mallory"),
      ("body", .str "hello")] = some (.str "@mallory")
    ∧ (TimelineModel.fresh "!r").decryptEvent sampleCollaborators
        (sampleEnvelope "s1" forgedPlaintext)
      = .ok ⟨{ event_id := "$e", sender := "@alice", origin_server_ts := 1000,
               content := .text "hello" "" }, true⟩
    ∧ (∀ ev, (TimelineModel.fresh "!r").decryptEvent sampleCollaborators
        (sampleEnvelope "s1" forgedPlaintext) = .ok ⟨ev, true⟩ → ev.sender = "@alice") :=
  ⟨rfl, rfl,
   (decrypted_metadata_override sampleCollaborators (TimelineModel.fresh "!r")
      (sampleEnvelope "s1" forgedPlaintext) { pickled := "s1" } forgedPlaintext
      [("type", .str "m.room.message"), ("sender", .str "@mallory"), ("body", .str "hello")]
      rfl rfl rfl rfl).2.2.2.2.2.2.2 sampleParseTimelineEvents_sender⟩

/-! ## C10: when decryption succeeds -/

theorem parsedResult_success {c : Collaborators} {e : EncryptedEvent}
    {events : List TimelineEvents} {ev : TimelineEvents} :
    parsedResult c e events = ⟨ev, true⟩ ↔ events = [ev] := by
  cases events with
  | nil => simp [parsedResult]
  | cons ev1 rest =>
    cases rest with
    | nil => simp [parsedResult]
    | cons ev2 rest2 => simp [parsedResult]

theorem parsedResult_placeholder {c : Collaborators} {e : EncryptedEvent}
    {events : List TimelineEvents} (hlen : events.length ≠ 1) :
    parsedResult c e events = ⟨dummyNotice e (c.tr unknownTypeText), false⟩ := by
  cases events with
  | nil => rfl
  | cons ev1 rest =>
    cases rest with
    | nil => simp at hlen
    | cons ev2 rest2 => rfl

theorem eventArray_inr {c : Collaborators} {m : TimelineModel} {e : EncryptedEvent}
    {event_array : Json} (h : eventArray c m e = .ok (.inr event_array)) :
    ∃ doc, event_array = .arr [doc] ∧ Reconstructs c m e doc := by
  unfold eventArray at h
  cases hexists : c.inboundMegolmSessionExists (sessionIndex m e) with
  | error err => simp [hexists] at h
  | ok present =>
    cases present with
    | false => simp [hexists] at h
    | true =>
      cases hsession : c.getInboundMegolmSession (sessionIndex m e) with
      | error err => simp [hexists, hsession] at h
      | ok session =>
        cases hdecrypt : c.decrypt_group_message session e.content.ciphertext with
        | error err => simp [hexists, hsession, hdecrypt] at h
        | ok msg_str =>
          simp only [hexists, hsession, hdecrypt] at h
          cases hparse : c.parse msg_str with
          | error err =>
            rw [hparse] at h
            cases h
          | ok body =>
            cases hdoc : addMissingFields e body with
            | error err =>
              rw [hparse] at h
              change (addMissingFields e body >>= fun b => pure (Sum.inr (Json.arr [b]))) = _
                at h
              rw [hdoc] at h
              cases h
            | ok doc =>
              rw [hparse] at h
              change (addMissingFields e body >>= fun b => pure (Sum.inr (Json.arr [b]))) = _
                at h
              rw [hdoc] at h
              change Except.ok (Sum.inr (Json.arr [doc])) = _ at h
              simp only [Except.ok.injEq, Sum.inr.injEq] at h
              exact ⟨doc, h.symm, hexists, session, msg_str, body, hsession, hdecrypt,
                hparse, hdoc⟩

theorem eventArray_inl_success {c : Collaborators} {m : TimelineModel} {e : EncryptedEvent}
    {r : DecryptionResult} (h : eventArray c m e = .ok (.inl r)) : r.success = false := by
  unfold eventArray at h
  cases hexists : c.inboundMegolmSessionExists (sessionIndex m e) with
  | error err =>
    simp only [hexists, Except.ok.injEq, Sum.inl.injEq] at h
    rw [← h]
  | ok present =>
    cases present with
    | false =>
      simp only [hexists, Except.ok.injEq, Sum.inl.injEq] at h
      rw [← h]
    | true =>
      cases hsession : c.getInboundMegolmSession (sessionIndex m e) with
      | error err =>
        simp only [hexists, hsession, Except.ok.injEq, Sum.inl.injEq] at h
        rw [← h]
      | ok session =>
        cases hdecrypt : c.decrypt_group_message session e.content.ciphertext with
        | error err =>
          simp only [hexists, hsession, hdecrypt, Except.ok.injEq, Sum.inl.injEq] at h
          rw [← h]
        | ok msg_str =>
          simp only [hexists, hsession, hdecrypt] at h
          cases hparse : c.parse msg_str with
          | error err =>
            rw [hparse] at h
            cases h
          | ok body =>
            rw [hparse] at h
            change (addMissingFields e body >>= fun b => pure (Sum.inr (Json.arr [b]))) = _
              at h
            cases hdoc : addMissingFields e body with
            | error err =>
              rw [hdoc] at h
              cases h
            | ok doc =>
              rw [hdoc] at h
              cases h

/-- C10. `decryptEvent` returns the event `ev` with `success = true` if and only if the
session exists, its retrieval and the group decryption succeed, the plaintext is
rebuilt into a document, and the parser makes exactly the one event `ev` of that
document; and whenever the document is rebuilt but the parser makes no event or more
than one of it, the result is the "unknown event type" notice with `success = false`. -/
theorem decryptEvent_success_iff (c : Collaborators) (m : TimelineModel)
    (e : EncryptedEvent) :
    (∀ ev, m.decryptEvent c e = .ok ⟨ev, true⟩
        ↔ ∃ doc, Reconstructs c m e doc ∧ c.parse_timeline_events (.arr [doc]) = [ev])
    ∧ (∀ doc, Reconstructs c m e doc →
        (c.parse_timeline_events (.arr [doc])).length ≠ 1 →
        m.decryptEvent c e = .ok ⟨dummyNotice e (c.tr unknownTypeText), false⟩) := by
  constructor
  · intro ev
    constructor
    · intro h
      unfold TimelineModel.decryptEvent at h
      cases harr : eventArray c m e with
      | error err =>
        rw [harr] at h
        cases h
      | ok stage =>
        rw [harr] at h
        cases stage with
        | inl placeholder =>
          change Except.ok placeholder = _ at h
          simp only [Except.ok.injEq] at h
          have hfalse := eventArray_inl_success harr
          rw [h] at hfalse
          simp at hfalse
        | inr event_array =>
          change Except.ok (parsedResult c e (c.parse_timeline_events event_array)) = _ at h
          simp only [Except.ok.injEq] at h
          obtain ⟨doc, rfl, hdoc⟩ := eventArray_inr harr
          exact ⟨doc, hdoc, parsedResult_success.1 h⟩
    · rintro ⟨doc, ⟨hexists, session, msg_str, body, hsession, hdecrypt, hparse, hdoc⟩, hev⟩
      rw [(decryptEvent_decrypted hexists hsession hdecrypt hparse hdoc).2, hev]
      rfl
  · rintro doc ⟨hexists, session, msg_str, body, hsession, hdecrypt, hparse, hdoc⟩ hlen
    rw [(decryptEvent_decrypted hexists hsession hdecrypt hparse hdoc).2,
      parsedResult_placeholder hlen]

/-- C10 at two envelopes: the forged text message is returned as the parsed event with
`success = true`; the plaintext of an unknown type is rebuilt, parses to no event, and
gives the "unknown event type" notice with `success = false`. -/
theorem decryptEvent_success_iff_witness :
    (TimelineModel.fresh "!r").decryptEvent sampleCollaborators
        (sampleEnvelope "s1" forgedPlaintext)
      = .ok ⟨{ event_id := "$e", sender := "@alice", origin_server_ts := 1000,
               content := .text "hello" "" }, true⟩
    ∧ (TimelineModel.fresh "!r").decryptEvent sampleCollaborators
        (sampleEnvelope "s1" customPlaintext)
      = .ok ⟨{ event_id := "$e", sender := "@alice", origin_server_ts := 1000,
               content := .notice "-- Encrypted Event (Unknown event type) --" "" }, false⟩ :=
  ⟨((decryptEvent_success_iff sampleCollaborators (TimelineModel.fresh "!r")
      (sampleEnvelope "s1" forgedPlaintext)).1 _).2
      ⟨overridden (sampleEnvelope "s1" forgedPlaintext)
        [("type", .str "m.room.message"), ("sender", .str "@mallory"),
         ("body", .str "hello")],
       ⟨rfl, { pickled := "s1" }, forgedPlaintext, forgedDocument, rfl, rfl, rfl, rfl⟩, rfl⟩,
   (decryptEvent_success_iff sampleCollaborators (TimelineModel.fresh "!r")
      (sampleEnvelope "s1" customPlaintext)).2
      (overridden (sampleEnvelope "s1" customPlaintext) [("type", .str "org.example.custom")])
      ⟨rfl, { pickled := "s1" }, customPlaintext, .obj [("type", .str "org.example.custom")],
        rfl, rfl, rfl, rfl⟩
      (by decide)⟩

/-! ## C11: a forward batch is appended at the tail -/

theorem toInt_of_lt {n : Nat} (h : n < 2 ^ 31) : toInt n = (n : Int) := by
  unfold toInt
  have h1 : n % 2 ^ 32 = n := Nat.mod_eq_of_lt (by omega)
  rw [h1, if_pos h]

theorem addEvents_events_mem (m : TimelineModel) (timeline : Timeline) :
    ∀ e ∈ timeline.events, ∃ e' ∈ timeline.events, eventId e' = eventId e ∧
      lastWithId (eventId e) timeline.events = some e' ∧
      (m.addEvents timeline).events (eventId e) = some e' := by
  intro e he
  obtain ⟨e', he'⟩ := lastWithId_isSome (List.mem_map.2 ⟨e, he, rfl⟩)
  obtain ⟨hmem, hid⟩ := lastWithId_mem he'
  refine ⟨e', hmem, hid, he', ?_⟩
  rw [addEvents_events, he']
  rfl

/-- C11. For every timeline state and every forward batch, after `addEvents` the order
is the old order followed by the ids of the batch in batch order; the hash maps the id
of every event of the batch to the event of the batch with that id (the last one
carrying it, which is the event itself whenever no other event of the batch shares its
id); the order has grown by the length of the batch, and so has `rowCount` as long as
the number of rows fits the `int` that `rowCount` returns. -/
theorem addEvents_appends_batch (m : TimelineModel) (timeline : Timeline) :
    (m.addEvents timeline).eventOrder = m.eventOrder ++ timeline.events.map eventId
    ∧ (∀ e ∈ timeline.events, ∃ e' ∈ timeline.events, eventId e' = eventId e ∧
        lastWithId (eventId e) timeline.events = some e' ∧
        (m.addEvents timeline).events (eventId e) = some e')
    ∧ (∀ e ∈ timeline.events, (∀ e' ∈ timeline.events, eventId e' = eventId e → e' = e) →
        (m.addEvents timeline).events (eventId e) = some e)
    ∧ (m.addEvents timeline).eventOrder.length
        = m.eventOrder.length + timeline.events.length
    ∧ (m.eventOrder.length + timeline.events.length < 2 ^ 31 →
        (m.addEvents timeline).rowCount = m.rowCount + timeline.events.length) := by
  have horder := addEvents_eventOrder m timeline
  have hlen : (m.addEvents timeline).eventOrder.length
      = m.eventOrder.length + timeline.events.length := by
    rw [horder, List.length_append, List.length_map]
  refine ⟨horder, addEvents_events_mem m timeline, ?_, hlen, ?_⟩
  · intro e he huniq
    obtain ⟨e', hmem, hid, _, hev⟩ := addEvents_events_mem m timeline e he
    rw [hev, huniq e' hmem hid]
  · intro hfit
    unfold TimelineModel.rowCount
    rw [hlen, toInt_of_lt hfit, toInt_of_lt (by omega)]
    push_cast
    rfl

/-- C11, the example: appending `$1` sent by `@a` to a fresh timeline gives one row,
and row 0 reads the sender `@a`. -/
theorem addEvents_appends_batch_witness :
    ((TimelineModel.fresh "!r").addEvents batchE1).eventOrder = ["$1"]
    ∧ ((TimelineModel.fresh "!r").addEvents batchE1).events "$1"
        = some (textEvent "$1" "@a" 1000)
    ∧ ((TimelineModel.fresh "!r").addEvents batchE1).rowCount = 1
    ∧ ((TimelineModel.fresh "!r").addEvents batchE1).data sampleCollaborators sampleView 0
        .UserId = .ok (.string "@a") := by
  have h := addEvents_appends_batch (TimelineModel.fresh "!r") batchE1
  refine ⟨h.1, h.2.2.1 (textEvent "$1" "@a" 1000) (by simp [batchE1]) (by simp [batchE1]),
    ?_, rfl⟩
  rw [h.2.2.2.2 (by decide)]
  decide

/-! ## C12: an empty forward batch -/

/-- C12. For every timeline state, `addEvents` with a batch that holds no events leaves
the order and the hash as they are and announces no inserted rows. -/
theorem addEvents_empty_batch (m : TimelineModel) (timeline : Timeline)
    (hempty : timeline.events = []) :
    (m.addEvents timeline).eventOrder = m.eventOrder
    ∧ (m.addEvents timeline).events = m.events
    ∧ (m.addEvents timeline).rowsInserted = m.rowsInserted := by
  unfold TimelineModel.addEvents
  cases m.isInitialSync <;> simp [hempty]

/-- C12 at the timeline holding `$4, $5`, with an empty batch that carries a token. -/
theorem addEvents_empty_batch_witness :
    (modelE4E5.addEvents { events := [], prev_batch := "tok9" }).eventOrder = ["$4", "$5"]
    ∧ (modelE4E5.addEvents { events := [], prev_batch := "tok9" }).events = modelE4E5.events
    ∧ (modelE4E5.addEvents { events := [], prev_batch := "tok9" }).rowsInserted = [(0, 1)] := by
  have h := addEvents_empty_batch modelE4E5 { events := [], prev_batch := "tok9" } rfl
  refine ⟨h.1.trans (by decide), h.2.1, h.2.2.trans (by decide)⟩

/-! ## C13: the cursor is taken from the first forward batch only -/

theorem addEvents_isInitialSync (m : TimelineModel) (timeline : Timeline) :
    (m.addEvents timeline).isInitialSync = false := by
  unfold TimelineModel.addEvents
  cases h : m.isInitialSync <;> cases timeline.events <;> simp [h]

theorem addBackwardsEvents_isInitialSync (m : TimelineModel) (msgs : Messages) :
    (m.addBackwardsEvents msgs).isInitialSync = m.isInitialSync := by
  simp [TimelineModel.addBackwardsEvents]

theorem step_isInitialSync {w w' : World} {op : Op} (hstep : w.step op = some w') :
    w'.model.isInitialSync = (w.model.isInitialSync && !op.isAddEvents) := by
  cases op with
  | addEvents timeline =>
    simp only [World.step, Option.some.injEq] at hstep
    subst hstep
    simp [Op.isAddEvents, addEvents_isInitialSync]
  | addBackwardsEvents msgs =>
    simp only [World.step, Option.some.injEq] at hstep
    subst hstep
    simp [Op.isAddEvents, addBackwardsEvents_isInitialSync]
  | fetchHistory =>
    by_cases hflag : w.model.paginationInProgress = true
    · simp only [World.step, fetchHistory_noop _ hflag, Option.some.injEq] at hstep
      subst hstep
      simp [Op.isAddEvents]
    · simp only [Bool.not_eq_true] at hflag
      simp only [World.step, TimelineModel.fetchHistory, hflag, Bool.false_eq_true,
        if_false, Option.some.injEq] at hstep
      subst hstep
      simp [Op.isAddEvents]
  | response i res err =>
    simp only [World.step] at hstep
    split at hstep
    · simp only [Option.some.injEq] at hstep
      subst hstep
      cases err with
      | none => simp [Op.isAddEvents, TimelineModel.messagesCallback,
          addBackwardsEvents_isInitialSync]
      | some _ => simp [Op.isAddEvents, TimelineModel.messagesCallback]
    · simp at hstep

theorem run_isInitialSync {w w' : World} {ops : List Op} (hrun : w.run ops = some w') :
    w'.model.isInitialSync = (w.model.isInitialSync && !ops.any Op.isAddEvents) := by
  induction ops generalizing w with
  | nil =>
    simp only [World.run, Option.some.injEq] at hrun
    subst hrun
    simp
  | cons op ops ih =>
    simp only [World.run] at hrun
    cases hstep : w.step op with
    | none => simp [hstep] at hrun
    | some w1 =>
      simp only [hstep, Option.some_bind] at hrun
      rw [ih hrun, step_isInitialSync hstep, List.any_cons]
      cases w.model.isInitialSync <;> cases op.isAddEvents <;>
        cases ops.any Op.isAddEvents <;> rfl

/-- C13. In a state reached from a fresh timeline, an `addEvents` call sets the
pagination token to the `prev_batch` of its batch when no `addEvents` call came before
(also when the batch holds no events, and whatever else happened before), and leaves
the token as it is when an `addEvents` call came before, whatever `prev_batch` the
batch carries. -/
theorem token_recorded_by_first_addEvents (room_id : String) (ops : List Op) (w : World)
    (timeline : Timeline) (hrun : (World.fresh room_id).run ops = some w) :
    (ops.any Op.isAddEvents = false →
        (w.model.addEvents timeline).prev_batch_token_ = timeline.prev_batch)
    ∧ (ops.any Op.isAddEvents = true →
        (w.model.addEvents timeline).prev_batch_token_ = w.model.prev_batch_token_) := by
  have hinit := run_isInitialSync hrun
  simp only [World.fresh, TimelineModel.fresh, Bool.true_and] at hinit
  constructor
  · intro hnone
    rw [hnone] at hinit
    unfold TimelineModel.addEvents
    cases timeline.events <;> simp [hinit]
  · intro hsome
    rw [hsome] at hinit
    unfold TimelineModel.addEvents
    cases timeline.events <;> simp [hinit]

/-- C13 at two runs: after a backward fetch answered before the first sync the token is
`tok2`, and the first `addEvents`, with an empty batch, sets it to `tok7`; after one
`addEvents` the token is `tok1`, and a later `addEvents` carrying `tok7` leaves it. -/
theorem token_recorded_by_first_addEvents_witness :
    (World.fresh "!r").run fetchBeforeSync = some fetchBeforeSyncWorld
    ∧ fetchBeforeSyncWorld.model.prev_batch_token_ = "tok2"
    ∧ (fetchBeforeSyncWorld.model.addEvents { events := [], prev_batch := "tok7" }
        ).prev_batch_token_ = "tok7"
    ∧ (World.fresh "!r").run [.addEvents batchE1] = some { model := modelE1 }
    ∧ modelE1.prev_batch_token_ = "tok1"
    ∧ (modelE1.addEvents { events := [textEvent "$2" "@a" 2000], prev_batch := "tok7" }
        ).prev_batch_token_ = modelE1.prev_batch_token_ :=
  ⟨rfl, by decide,
   (token_recorded_by_first_addEvents "!r" fetchBeforeSync fetchBeforeSyncWorld
      { events := [], prev_batch := "tok7" } rfl).1 (by decide),
   rfl, by decide,
   (token_recorded_by_first_addEvents "!r" [.addEvents batchE1] { model := modelE1 }
      { events := [textEvent "$2" "@a" 2000], prev_batch := "tok7" } rfl).2 (by decide)⟩

/-! ## C14: a successful response -/

/-- C14. For every state and every successful response, `addBackwardsEvents` (also when
reached through the callback of `fetchHistory`) sets the pagination token to the `end`
of the response and clears `paginationInProgress`, so that the next `fetchHistory`
issues a request for the room of the timeline from that token and sets the flag again. -/
theorem successful_response_updates_cursor (m : TimelineModel) (msgs : Messages) :
    (m.addBackwardsEvents msgs).prev_batch_token_ = msgs.«end»
    ∧ (m.addBackwardsEvents msgs).paginationInProgress = false
    ∧ m.messagesCallback msgs none = m.addBackwardsEvents msgs
    ∧ ((m.addBackwardsEvents msgs).fetchHistory).2
        = some { room_id := m.room_id_, «from» := msgs.«end» }
    ∧ ((m.addBackwardsEvents msgs).fetchHistory).1.paginationInProgress = true := by
  refine ⟨by simp [TimelineModel.addBackwardsEvents],
    by simp [TimelineModel.addBackwardsEvents], rfl, ?_, ?_⟩ <;>
  simp [TimelineModel.fetchHistory, TimelineModel.addBackwardsEvents]

/-! ## C15: section labels within one day -/

theorem vectorAt_of_get? {v : List String} {i : Nat} {x : String}
    (h : v.get? i = some x) : vectorAt v (i : Int) = .ok x := by
  rw [List.get?_eq_getElem?] at h
  simp [vectorAt, h]

theorem sectionScan_same_day (v : ViewContext) (m : TimelineModel) (date : Int)
    (userId : String)
    (hstored : ∀ id ∈ m.eventOrder, v.startOfDay (eventTimestamp (m.events.value id)) = date) :
    ∀ n, n < m.eventOrder.length → sectionScan v m date userId n = .ok none := by
  intro n
  induction n with
  | zero => intro _; rfl
  | succ n ih =>
    intro hn
    have hget : m.eventOrder.get? (n + 1) = some (m.eventOrder.get ⟨n + 1, hn⟩) :=
      List.get?_eq_get hn
    have hday := hstored _ (List.get_mem m.eventOrder (n + 1) hn)
    unfold sectionScan
    rw [vectorAt_of_get? hget]
    simp only [Except.bind, bind, hday, ne_eq, not_true_eq_false, if_false]
    split
    · rfl
    · exact ih (by omega)

theorem data_section_same_day (c : Collaborators) (v : ViewContext) (m : TimelineModel)
    (day : Int)
    (hstored : ∀ id ∈ m.eventOrder, v.startOfDay (eventTimestamp (m.events.value id)) = day)
    (i : Nat) (id : String) (ev : TimelineEvents)
    (hid : m.eventOrder.get? i = some id) (hev : resolveEvent c m id = .ok ev)
    (hday : v.startOfDay (eventTimestamp ev) = day) :
    m.data c v i .Section = .ok (.string (senderId ev))
    ∧ m.data c v i .UserId = .ok (.string (senderId ev)) := by
  have hlt : i < m.eventOrder.length := by
    rcases Nat.lt_or_ge i m.eventOrder.length with h | h
    · exact h
    · rw [List.get?_eq_none.2 h] at hid
      cases hid
  have hguard : ¬ (((i : Nat) : Int) < 0 ∧ ((i : Nat) : Int) ≥ toInt m.eventOrder.length) :=
    fun h => absurd h.1 (by omega)
  have hscan : sectionScan v m (v.startOfDay (eventTimestamp ev)) (senderId ev)
      (((i : Nat) : Int) - 1).toNat = .ok none := by
    rw [hday]
    exact sectionScan_same_day v m day _ hstored _ (by omega)
  constructor
  · unfold TimelineModel.data
    rw [if_neg hguard, vectorAt_of_get? hid]
    simp only [Except.bind, bind, hev, sectionLabel, hscan]
    rfl
  · unfold TimelineModel.data
    rw [if_neg hguard, vectorAt_of_get? hid]
    simp only [Except.bind, bind, hev]
    rfl

/-- C15. For every timeline whose events all fall on the same calendar day (the stored
events of the order and the events that the two rows resolve to), the Section label of
a row is the sender of its event; so the labels of two rows are equal when their
senders are equal and different when their senders differ. -/
theorem section_label_same_day (c : Collaborators) (v : ViewContext) (m : TimelineModel)
    (day : Int)
    (hstored : ∀ id ∈ m.eventOrder, v.startOfDay (eventTimestamp (m.events.value id)) = day)
    (i j : Nat) (idi idj : String) (evi evj : TimelineEvents)
    (hidi : m.eventOrder.get? i = some idi) (hidj : m.eventOrder.get? j = some idj)
    (hevi : resolveEvent c m idi = .ok evi) (hevj : resolveEvent c m idj = .ok evj)
    (hdayi : v.startOfDay (eventTimestamp evi) = day)
    (hdayj : v.startOfDay (eventTimestamp evj) = day) :
    m.data c v i .Section = .ok (.string (senderId evi))
    ∧ m.data c v j .Section = .ok (.string (senderId evj))
    ∧ m.data c v i .UserId = .ok (.string (senderId evi))
    ∧ m.data c v j .UserId = .ok (.string (senderId evj))
    ∧ (m.data c v i .Section = m.data c v j .Section ↔ senderId evi = senderId evj) := by
  obtain ⟨hsi, hui⟩ := data_section_same_day c v m day hstored i idi evi hidi hevi hdayi
  obtain ⟨hsj, huj⟩ := data_section_same_day c v m day hstored j idj evj hidj hevj hdayj
  refine ⟨hsi, hsj, hui, huj, ?_⟩
  rw [hsi, hsj]
  constructor
  · intro h
    simpa using h
  · intro h
    rw [h]

/-- C15, the example: for the senders `@A, @A, @A, @B` on one day the labels of the
rows 0, 1, 2 are `@A` and the label of row 3 is `@B`. -/
theorem section_label_same_day_witness :
    modelAAAB.data sampleCollaborators sampleView 0 .Section = .ok (.string "@A")
    ∧ modelAAAB.data sampleCollaborators sampleView 1 .Section = .ok (.string "@A")
    ∧ modelAAAB.data sampleCollaborators sampleView 2 .Section = .ok (.string "@A")
    ∧ modelAAAB.data sampleCollaborators sampleView 3 .Section = .ok (.string "@B")
    ∧ (modelAAAB.data sampleCollaborators sampleView 2 .Section
        = modelAAAB.data sampleCollaborators sampleView 3 .Section ↔ "@A" = "@B") := by
  have hstored : ∀ id ∈ modelAAAB.eventOrder,
      sampleView.startOfDay (eventTimestamp (modelAAAB.events.value id)) = 0 := by decide
  have h01 := section_label_same_day sampleCollaborators sampleView modelAAAB 0 hstored
    0 1 "$1" "$2" (textEvent "$1" "@A" 1000) (textEvent "$2" "@A" 2000)
    rfl rfl rfl rfl rfl rfl
  have h23 := section_label_same_day sampleCollaborators sampleView modelAAAB 0 hstored
    2 3 "$3" "$4" (textEvent "$3" "@A" 3000) (textEvent "$4" "@B" 4000)
    rfl rfl rfl rfl rfl rfl
  exact ⟨h01.1, h01.2.1, h23.1, h23.2.1, h23.2.2.2.2⟩

/-! ## C16: the section label of the first two rows -/

/-- C16. Two messages of the same sender on different days in the rows 0 and 1 get the
same Section label, the plain sender: the loop of the Section case runs while `r > 0`
and never compares with row 0. Below another row the same pair gets different
labels, the second one carrying the date. -/
theorem section_label_ignores_row_zero :
    sampleView.startOfDay 1000 ≠ sampleView.startOfDay 86401000
    ∧ modelTwoDays.data sampleCollaborators sampleView 0 .UserId = .ok (.string "@a")
    ∧ modelTwoDays.data sampleCollaborators sampleView 1 .UserId = .ok (.string "@a")
    ∧ modelTwoDays.data sampleCollaborators sampleView 0 .Section = .ok (.string "@a")
    ∧ modelTwoDays.data sampleCollaborators sampleView 1 .Section = .ok (.string "@a")
    ∧ modelThreeRows.data sampleCollaborators sampleView 1 .Section = .ok (.string "@a")
    ∧ modelThreeRows.data sampleCollaborators sampleView 2 .Section
        = .ok (.string "@a 86400000") := by
  exact ⟨by decide, rfl, rfl, rfl, rfl, rfl, rfl⟩

/-! ## C20: rows outside the order -/

/-- C20. The guard of `data` asks for `row < 0 && row >= size`, which no row satisfies
while the size fits an `int`: on an empty timeline the rows 0 and -1, and on a timeline
with one row the row 1, pass the guard and index `eventOrder` outside its range
instead of returning the invalid value. Row 0 of the timeline with one row is read. -/
theorem data_out_of_range_not_guarded :
    (TimelineModel.fresh "!r").rowCount = 0
    ∧ (TimelineModel.fresh "!r").data sampleCollaborators sampleView 0 .Id
        = .error .out_of_range
    ∧ (TimelineModel.fresh "!r").data sampleCollaborators sampleView (-1) .UserId
        = .error .out_of_range
    ∧ modelE1.rowCount = 1
    ∧ modelE1.data sampleCollaborators sampleView 1 .Section = .error .out_of_range
    ∧ modelE1.data sampleCollaborators sampleView 0 .Id = .ok (.string "$1") := by
  refine ⟨by decide, rfl, rfl, by decide, rfl, rfl⟩

/-! ## C17: the announced ranges -/

theorem sizeT_pred {a : Nat} (hpos : 0 < a) (hlt : a < 2 ^ 64) :
    sizeT ((a : Int) - 1) = a - 1 := by
  unfold sizeT
  have h1 : ((a : Int) - 1) = ((a - 1 : Nat) : Int) := by omega
  rw [h1]
  have h2 : (((a - 1 : Nat) : Int) % (2 ^ 64 : Int)) = ((a - 1 : Nat) : Int) :=
    Int.emod_eq_of_lt (by omega) (by omega)
  rw [h2, Int.toNat_ofNat]

/-- C17. For every forward batch of `n ≥ 1` events applied to an order of length `k`
the announced range is `[k, k + n - 1]`, the first `k` positions of the new order hold
the old order and the positions from `k` on hold the ids of the batch; for every
backward chunk of `n ≥ 1` events the announced range is `[0, n - 1]`, the first `n`
positions of the new order hold the reversed ids of the chunk and the positions from
`n` on hold the old order. The row numbers are those of an `int`, so the number of
rows after the insertion is taken to fit one. -/
theorem insert_ranges_exact (m : TimelineModel) (timeline : Timeline) (msgs : Messages)
    (hforward : timeline.events ≠ []) (hbackward : msgs.chunk ≠ [])
    (hfitf : m.eventOrder.length + timeline.events.length < 2 ^ 31)
    (hfitb : m.eventOrder.length + msgs.chunk.length < 2 ^ 31) :
    (m.addEvents timeline).rowsInserted
        = m.rowsInserted ++ [((m.eventOrder.length : Int),
            (m.eventOrder.length : Int) + timeline.events.length - 1)]
    ∧ (m.addEvents timeline).eventOrder.take m.eventOrder.length = m.eventOrder
    ∧ (m.addEvents timeline).eventOrder.drop m.eventOrder.length
        = timeline.events.map eventId
    ∧ (m.addBackwardsEvents msgs).rowsInserted
        = m.rowsInserted ++ [(0, (msgs.chunk.length : Int) - 1)]
    ∧ (m.addBackwardsEvents msgs).eventOrder.take msgs.chunk.length
        = (msgs.chunk.map eventId).reverse
    ∧ (m.addBackwardsEvents msgs).eventOrder.drop msgs.chunk.length = m.eventOrder := by
  have hnf : 0 < timeline.events.length := List.length_pos.2 hforward
  have hnb : 0 < msgs.chunk.length := List.length_pos.2 hbackward
  refine ⟨?_, ?_, ?_, ?_, ?_, ?_⟩
  · have hcast : ((m.eventOrder.length : Int) + (timeline.events.length : Int) - 1)
        = ((m.eventOrder.length + timeline.events.length : Nat) : Int) - 1 := by
      push_cast
      rfl
    have hlast : toInt (sizeT ((m.eventOrder.length : Int) + timeline.events.length - 1))
        = (m.eventOrder.length : Int) + timeline.events.length - 1 := by
      rw [hcast, sizeT_pred (by omega) (by omega), toInt_of_lt (by omega)]
      omega
    have hempty : timeline.events.isEmpty = false := by
      cases hev : timeline.events with
      | nil => exact absurd hev hforward
      | cons e rest => rfl
    unfold TimelineModel.addEvents
    cases m.isInitialSync <;>
      simp [hempty, insertBatch_snd, toInt_of_lt (show m.eventOrder.length < 2 ^ 31 by omega),
        hlast]
  · rw [addEvents_eventOrder, List.take_left]
  · rw [addEvents_eventOrder, List.drop_left]
  · have hlast : toInt (sizeT ((msgs.chunk.length : Int) - 1))
        = (msgs.chunk.length : Int) - 1 := by
      rw [sizeT_pred hnb (by omega), toInt_of_lt (by omega)]
      omega
    simp [TimelineModel.addBackwardsEvents, insertBatch_snd, hlast]
  · rw [addBackwardsEvents_eventOrder]
    have hlen : msgs.chunk.length = (msgs.chunk.map eventId).reverse.length := by simp
    rw [hlen, List.take_left]
  · rw [addBackwardsEvents_eventOrder]
    have hlen : msgs.chunk.length = (msgs.chunk.map eventId).reverse.length := by simp
    rw [hlen, List.drop_left]

/-- C17 at the timeline holding `$4, $5`: the batch `$1` is announced as `[2, 2]`, the
chunk `$3, $2, $1` as `[0, 2]`. -/
theorem insert_ranges_exact_witness :
    modelE4E5.rowsInserted = [(0, 1)]
    ∧ (modelE4E5.addEvents batchE1).rowsInserted = [(0, 1), (2, 2)]
    ∧ (modelE4E5.addEvents batchE1).eventOrder = ["$4", "$5", "$1"]
    ∧ (modelE4E5.addBackwardsEvents chunkE3E2E1).rowsInserted = [(0, 1), (0, 2)]
    ∧ (modelE4E5.addBackwardsEvents chunkE3E2E1).eventOrder.take 3 = ["$1", "$2", "$3"]
    ∧ (modelE4E5.addBackwardsEvents chunkE3E2E1).eventOrder.drop 3 = ["$4", "$5"] := by
  have h := insert_ranges_exact modelE4E5 batchE1 chunkE3E2E1 (by decide) (by decide)
    (by decide) (by decide)
  exact ⟨by decide, h.1.trans (by decide), by decide, h.2.2.2.1.trans (by decide),
    h.2.2.2.2.1.trans (by decide), h.2.2.2.2.2.trans (by decide)⟩

/-! ## C18: the reply markers in the formatted body -/

theorem startsWith_iff (pat s : List Char) :
    startsWith pat s = true ↔ ∃ post, s = pat ++ post := by
  induction pat generalizing s with
  | nil => simp [startsWith]
  | cons p ps ih =>
    cases s with
    | nil => simp [startsWith]
    | cons c cs =>
      simp only [startsWith, Bool.and_eq_true, decide_eq_true_eq, ih, List.cons_append,
        List.cons.injEq]
      constructor
      · rintro ⟨hpc, post, hpost⟩
        exact ⟨post, hpc.symm, hpost⟩
      · rintro ⟨post, hpc, hpost⟩
        exact ⟨hpc.symm, post, hpost⟩

theorem stdFind_none {pat s : List Char} (h : stdFind pat s = none) : ¬ Occurs pat s := by
  induction s with
  | nil =>
    rintro ⟨pre, post, hs⟩
    have hpat : pat = [] := by
      cases pat with
      | nil => rfl
      | cons p ps =>
        have hlen := congrArg List.length hs
        simp only [List.length_nil, List.length_append, List.length_cons] at hlen
        omega
    simp [stdFind, hpat] at h
  | cons c cs ih =>
    unfold stdFind at h
    split at h
    · cases h
    · rename_i hstart
      have hrest : stdFind pat cs = none := by
        cases hf : stdFind pat cs with
        | none => rfl
        | some n => simp [hf] at h
      rintro ⟨pre, post, hs⟩
      cases pre with
      | nil =>
        exact hstart ((startsWith_iff pat (c :: cs)).2 ⟨post, by simpa using hs⟩)
      | cons a pre' =>
        simp only [List.cons_append, List.cons.injEq] at hs
        exact ih hrest ⟨pre', post, hs.2⟩

theorem stdFind_some {pat s : List Char} {n : Nat} (h : stdFind pat s = some n) :
    ∃ pre post, s = pre ++ pat ++ post ∧ pre.length = n
      ∧ (∀ pre' post', s = pre' ++ pat ++ post' → n ≤ pre'.length)
      ∧ stdErase s n pat.length = pre ++ post := by
  induction s generalizing n with
  | nil =>
    unfold stdFind at h
    split at h
    · rename_i hemp
      simp only [Option.some.injEq] at h
      subst h
      have hpat : pat = [] := by simpa using hemp
      exact ⟨[], [], by simp [hpat], rfl, fun _ _ _ => Nat.zero_le _, by simp [stdErase]⟩
    · cases h
  | cons c cs ih =>
    unfold stdFind at h
    split at h
    · rename_i hstart
      simp only [Option.some.injEq] at h
      subst h
      obtain ⟨post, hpost⟩ := (startsWith_iff pat (c :: cs)).1 hstart
      refine ⟨[], post, by simpa using hpost, rfl, fun _ _ _ => Nat.zero_le _, ?_⟩
      rw [hpost]
      simp [stdErase]
    · rename_i hstart
      cases hf : stdFind pat cs with
      | none => simp [hf] at h
      | some k =>
        simp only [hf, Option.map_some', Option.some.injEq] at h
        subst h
        obtain ⟨pre, post, hs, hlen, hmin, herase⟩ := ih hf
        refine ⟨c :: pre, post, by simp [hs], by simp [hlen], ?_, ?_⟩
        · intro pre' post' hs'
          cases pre' with
          | nil =>
            exact absurd ((startsWith_iff pat (c :: cs)).2 ⟨post', by simpa using hs'⟩) hstart
          | cons a pre'' =>
            simp only [List.cons_append, List.cons.injEq] at hs'
            have := hmin pre'' post' hs'.2
            simp only [List.length_cons]
            omega
        · simp only [stdErase] at herase ⊢
          have hadd : k + 1 + pat.length = (k + pat.length) + 1 := by omega
          rw [hadd]
          simp only [List.take_succ_cons, List.drop_succ_cons, List.cons_append, herase]

theorem eraseMarker_cutFirst (marker : String) (temp : List Char) :
    CutFirst marker.data temp (eraseMarker marker temp) := by
  unfold eraseMarker
  cases hf : stdFind marker.data temp with
  | none => exact Or.inl ⟨stdFind_none hf, rfl⟩
  | some n =>
    obtain ⟨pre, post, hs, hlen, hmin, herase⟩ := stdFind_some hf
    exact Or.inr ⟨pre, post, hs, fun pre' post' h => hlen ▸ hmin pre' post' h, herase⟩

theorem eraseMarker_absent {marker : String} {temp : List Char}
    (h : ¬ Occurs marker.data temp) : eraseMarker marker temp = temp := by
  unfold eraseMarker
  cases hf : stdFind marker.data temp with
  | none => rfl
  | some n =>
    obtain ⟨pre, post, hs, _⟩ := stdFind_some hf
    exact absurd ⟨pre, post, hs⟩ h

theorem eventFormattedBody_formatted {e : TimelineEvents} {body formatted_body : String}
    (hcontent : e.content = .text body formatted_body
      ∨ e.content = .notice body formatted_body ∨ e.content = .emote body formatted_body)
    (hne : formatted_body ≠ "") :
    eventFormattedBody e
      = String.mk (eraseMarker "</mx-reply>" (eraseMarker "<mx-reply>" formatted_body.data)) := by
  unfold eventFormattedBody
  rcases hcontent with h | h | h <;> rw [h] <;> simp [hne]

/-- C18, the counterexample: of a formatted body with two quoted blocks only the first
opening and the first closing marker are cut out; the result still contains both. -/
theorem eventFormattedBody_keeps_second_marker :
    eventFormattedBody (formattedEvent "<mx-reply>a</mx-reply><mx-reply>b</mx-reply>c")
      = "a<mx-reply>b</mx-reply>c"
    ∧ Occurs "<mx-reply>".data
        (eventFormattedBody
          (formattedEvent "<mx-reply>a</mx-reply><mx-reply>b</mx-reply>c")).data
    ∧ Occurs "</mx-reply>".data
        (eventFormattedBody
          (formattedEvent "<mx-reply>a</mx-reply><mx-reply>b</mx-reply>c")).data := by
  have h : eventFormattedBody
      (formattedEvent "<mx-reply>a</mx-reply><mx-reply>b</mx-reply>c")
      = "a<mx-reply>b</mx-reply>c" := by decide
  rw [h]
  exact ⟨rfl, ⟨"a".data, "b</mx-reply>c".data, by decide⟩,
    ⟨"a<mx-reply>b".data, "c".data, by decide⟩⟩

/-- C18, as amended. For every message event (text, notice or emote) with a non-empty
formatted body, `eventFormattedBody` returns the formatted body with the first
occurrence of `<mx-reply>` cut out, if there is one, and then the first occurrence of
`</mx-reply>` in what remains cut out, if there is one; it returns the formatted body
unchanged when it contains neither marker. -/
theorem eventFormattedBody_cuts_first_markers (e : TimelineEvents)
    (body formatted_body : String)
    (hcontent : e.content = .text body formatted_body
      ∨ e.content = .notice body formatted_body ∨ e.content = .emote body formatted_body)
    (hne : formatted_body ≠ "") :
    (∃ mid, CutFirst "<mx-reply>".data formatted_body.data mid
        ∧ CutFirst "</mx-reply>".data mid (eventFormattedBody e).data)
    ∧ (¬ Occurs "<mx-reply>".data formatted_body.data →
        ¬ Occurs "</mx-reply>".data formatted_body.data →
        eventFormattedBody e = formatted_body) := by
  rw [eventFormattedBody_formatted hcontent hne]
  constructor
  · exact ⟨eraseMarker "<mx-reply>" formatted_body.data, eraseMarker_cutFirst _ _,
      eraseMarker_cutFirst _ _⟩
  · intro hopen hclose
    rw [eraseMarker_absent hopen, eraseMarker_absent hclose]

/-- C18 as amended, at a reply with one quoted block: both markers are cut out and the
quoted text and the answer stay. -/
theorem eventFormattedBody_cuts_first_markers_witness :
    eventFormattedBody (formattedEvent oneReply) = "<blockquote>q</blockquote>answer"
    ∧ ∃ mid, CutFirst "<mx-reply>".data oneReply.data mid
        ∧ CutFirst "</mx-reply>".data mid (eventFormattedBody (formattedEvent oneReply)).data :=
  ⟨by decide,
   (eventFormattedBody_cuts_first_markers (formattedEvent oneReply) "plain" oneReply
      (Or.inl rfl) (by decide)).1⟩

/-! ## C19: width, height and their quotient -/

theorem leadingBitAux_spec : ∀ fuel n : Nat, n ≤ fuel → n ≠ 0 →
    2 ^ leadingBitAux fuel n ≤ n ∧ n < 2 ^ (leadingBitAux fuel n + 1) := by
  intro fuel
  induction fuel with
  | zero =>
    intro n hle hne
    omega
  | succ fuel ih =>
    intro n hle hne
    unfold leadingBitAux
    by_cases h2 : n < 2
    · rw [if_pos h2]
      have h1 : n = 1 := by omega
      subst h1
      decide
    · rw [if_neg h2]
      obtain ⟨hlo, hhi⟩ := ih (n / 2) (by omega) (by omega)
      rw [Nat.pow_succ, Nat.pow_succ]
      generalize 2 ^ leadingBitAux fuel (n / 2) = p at hlo hhi
      rw [Nat.pow_succ] at hhi
      omega

theorem leadingBit_spec {n : Nat} (hne : n ≠ 0) :
    2 ^ leadingBit n ≤ n ∧ n < 2 ^ (leadingBit n + 1) :=
  leadingBitAux_spec n n (Nat.le_refl n) hne

theorem roundHalfEven_near (x den : Nat) (hden : 0 < den) :
    |((roundHalfEven (x / den) (x % den) den : Nat) : ℚ) - (x : ℚ) / den| ≤ 1 / 2 := by
  have hdq : (0 : ℚ) < den := by exact_mod_cast hden
  have hx : (x : ℚ) = (den : ℚ) * ((x / den : Nat) : ℚ) + ((x % den : Nat) : ℚ) := by
    exact_mod_cast (Nat.div_add_mod x den).symm
  have hrem : x % den < den := Nat.mod_lt x hden
  have hremq : ((x % den : Nat) : ℚ) < den := by exact_mod_cast hrem
  have hrem0 : (0 : ℚ) ≤ ((x % den : Nat) : ℚ) := by positivity
  have hquot : (x : ℚ) / den = ((x / den : Nat) : ℚ) + ((x % den : Nat) : ℚ) / den := by
    rw [eq_comm, ← sub_eq_zero]
    field_simp
    linarith
  rw [hquot, abs_le]
  unfold roundHalfEven
  split_ifs with h1 h2 h3
  · have h1q : 2 * ((x % den : Nat) : ℚ) < den := by exact_mod_cast h1
    have : ((x % den : Nat) : ℚ) / den < 1 / 2 := by
      rw [div_lt_iff₀ hdq]
      linarith
    have : 0 ≤ ((x % den : Nat) : ℚ) / den := by positivity
    constructor <;> linarith
  · have h2q : (den : ℚ) < 2 * ((x % den : Nat) : ℚ) := by exact_mod_cast h2
    have : 1 / 2 < ((x % den : Nat) : ℚ) / den := by
      rw [lt_div_iff₀ hdq]
      linarith
    have : ((x % den : Nat) : ℚ) / den < 1 := by
      rw [div_lt_iff₀ hdq]
      linarith
    push_cast
    constructor <;> linarith
  · have heq : 2 * (x % den) = den := by omega
    have heqq : 2 * ((x % den : Nat) : ℚ) = den := by exact_mod_cast heq
    have : ((x % den : Nat) : ℚ) / den = 1 / 2 := by
      rw [div_eq_iff (ne_of_gt hdq)]
      linarith
    constructor <;> linarith
  · have heq : 2 * (x % den) = den := by omega
    have heqq : 2 * ((x % den : Nat) : ℚ) = den := by exact_mod_cast heq
    have : ((x % den : Nat) : ℚ) / den = 1 / 2 := by
      rw [div_eq_iff (ne_of_gt hdq)]
      linarith
    push_cast
    constructor <;> linarith


theorem roundHalfEven_ge (q rem den : Nat) : q ≤ roundHalfEven q rem den := by
  unfold roundHalfEven
  split_ifs <;> omega

theorem toRat_normal (mant : Nat) (exp : Int) :
    (Double.normal mant exp).toRat = some ((mant : ℚ) * (2 : ℚ) ^ exp) := by
  unfold Double.normal
  split_ifs with h
  · subst h
    simp only [Double.toRat, Option.some.injEq]
    rw [zpow_add_one₀ (two_ne_zero)]
    push_cast
    ring
  · rfl

theorem ofUInt64_mant_ne_zero {n : Nat} (hne : n ≠ 0) :
    ∃ mant exp, Double.ofUInt64 n = .finite mant exp ∧ mant ≠ 0 := by
  obtain ⟨hlo, _⟩ := leadingBit_spec hne
  unfold Double.ofUInt64
  rw [if_neg hne]
  split_ifs with hL
  · exact ⟨_, _, rfl, Nat.mul_ne_zero hne (Nat.pos_iff_ne_zero.1 (Nat.two_pow_pos _))⟩
  · have hs : 2 ^ (leadingBit n - 52) ≤ n :=
      Nat.le_trans (Nat.pow_le_pow_right (by decide) (Nat.sub_le _ _)) hlo
    have hq : 1 ≤ n / 2 ^ (leadingBit n - 52) :=
      (Nat.le_div_iff_mul_le (Nat.two_pow_pos _)).2 (by simpa using hs)
    have hN := roundHalfEven_ge (n / 2 ^ (leadingBit n - 52)) (n % 2 ^ (leadingBit n - 52))
      (2 ^ (leadingBit n - 52))
    unfold Double.normal
    split_ifs with h53
    · exact ⟨_, _, rfl, by decide⟩
    · exact ⟨_, _, rfl, by omega⟩

theorem ofUInt64_exact {n : Nat} (hne : n ≠ 0) (hlt : n < 2 ^ 53) :
    ∃ mant exp, Double.ofUInt64 n = .finite mant exp ∧ 2 ^ 52 ≤ mant ∧ mant < 2 ^ 53
      ∧ (mant : ℚ) * (2 : ℚ) ^ exp = n := by
  obtain ⟨hlo, hhi⟩ := leadingBit_spec hne
  have hL : leadingBit n ≤ 52 := by
    by_contra hgt
    have h53 : 2 ^ 53 ≤ 2 ^ leadingBit n := Nat.pow_le_pow_right (by decide) (by omega)
    omega
  unfold Double.ofUInt64
  rw [if_neg hne, if_pos hL]
  have hsplit : 2 ^ leadingBit n * 2 ^ (52 - leadingBit n) = 2 ^ 52 := by
    rw [← Nat.pow_add]
    congr 1
    omega
  have hsplit' : 2 ^ (leadingBit n + 1) * 2 ^ (52 - leadingBit n) = 2 ^ 53 := by
    rw [← Nat.pow_add]
    congr 1
    omega
  have hpos : 0 < 2 ^ (52 - leadingBit n) := Nat.two_pow_pos _
  refine ⟨_, _, rfl, ?_, ?_, ?_⟩
  · rw [← hsplit]
    exact Nat.mul_le_mul_right _ hlo
  · rw [← hsplit']
    exact Nat.mul_lt_mul_of_pos_right hhi hpos
  · have hexp : ((leadingBit n : Int) - 52) = -((52 - leadingBit n : Nat) : Int) := by omega
    rw [hexp, zpow_neg, zpow_natCast]
    push_cast
    field_simp

theorem div_near (a b : Nat) (ea eb : Int) (ha : 2 ^ 52 ≤ a) (hb : 2 ^ 52 ≤ b)
    (hb' : b < 2 ^ 53) :
    ∃ v, (Double.div (.finite a ea) (.finite b eb)).toRat = some v
      ∧ |v - ((a : ℚ) * (2 : ℚ) ^ ea) / ((b : ℚ) * (2 : ℚ) ^ eb)|
          ≤ ((a : ℚ) * (2 : ℚ) ^ ea) / ((b : ℚ) * (2 : ℚ) ^ eb) / 2 ^ 53 := by
  have ha0 : a ≠ 0 := by omega
  have hb0 : b ≠ 0 := by omega
  have haq : (0 : ℚ) < a := by exact_mod_cast Nat.pos_of_ne_zero ha0
  have hbq : (0 : ℚ) < b := by exact_mod_cast Nat.pos_of_ne_zero hb0
  have hX : (0 : ℚ) < (2 : ℚ) ^ ea := zpow_pos (by norm_num) ea
  have hY : (0 : ℚ) < (2 : ℚ) ^ eb := zpow_pos (by norm_num) eb
  simp only [Double.div, if_neg hb0, if_neg ha0]
  split_ifs with hab
  · have hnear := roundHalfEven_near (a * 2 ^ 52) b (Nat.pos_of_ne_zero hb0)
    refine ⟨_, toRat_normal _ _, ?_⟩
    rw [zpow_sub₀ (two_ne_zero), zpow_sub₀ (two_ne_zero)]
    generalize (2 : ℚ) ^ ea = X at hX ⊢
    generalize (2 : ℚ) ^ eb = Y at hY ⊢
    generalize ((roundHalfEven (a * 2 ^ 52 / b) (a * 2 ^ 52 % b) b : Nat) : ℚ) = N at hnear ⊢
    have habq : (b : ℚ) ≤ a := by exact_mod_cast hab
    have hc : (0 : ℚ) < X / (Y * 2 ^ 53) := by positivity
    have hv : N * (X / Y / (2 : ℚ) ^ (52 : Int)) - (a : ℚ) * X / ((b : ℚ) * Y)
        = 2 * (N - ((a * 2 ^ 52 : Nat) : ℚ) / b) * (X / (Y * 2 ^ 53)) := by
      push_cast
      rw [zpow_ofNat]
      field_simp
      ring
    have hbound : (a : ℚ) * X / ((b : ℚ) * Y) / 2 ^ 53 = (a / b) * (X / (Y * 2 ^ 53)) := by
      field_simp
      ring
    rw [hv, hbound, abs_mul, abs_of_pos hc, abs_mul, abs_of_pos (by norm_num : (0 : ℚ) < 2)]
    apply mul_le_mul_of_nonneg_right _ (le_of_lt hc)
    have h1 : (1 : ℚ) ≤ a / b := (one_le_div hbq).2 habq
    linarith
  · have hnear := roundHalfEven_near (a * 2 ^ 53) b (Nat.pos_of_ne_zero hb0)
    refine ⟨_, toRat_normal _ _, ?_⟩
    rw [zpow_sub₀ (two_ne_zero), zpow_sub₀ (two_ne_zero)]
    generalize (2 : ℚ) ^ ea = X at hX ⊢
    generalize (2 : ℚ) ^ eb = Y at hY ⊢
    generalize ((roundHalfEven (a * 2 ^ 53 / b) (a * 2 ^ 53 % b) b : Nat) : ℚ) = N at hnear ⊢
    have hc : (0 : ℚ) < X / (Y * 2 ^ 53) := by positivity
    have hv : N * (X / Y / (2 : ℚ) ^ (53 : Int)) - (a : ℚ) * X / ((b : ℚ) * Y)
        = (N - ((a * 2 ^ 53 : Nat) : ℚ) / b) * (X / (Y * 2 ^ 53)) := by
      push_cast
      rw [zpow_ofNat]
      field_simp
      ring
    have hbound : (a : ℚ) * X / ((b : ℚ) * Y) / 2 ^ 53 = (a / b) * (X / (Y * 2 ^ 53)) := by
      field_simp
      ring
    rw [hv, hbound, abs_mul, abs_of_pos hc]
    apply mul_le_mul_of_nonneg_right _ (le_of_lt hc)
    have hhalf : (1 : ℚ) / 2 ≤ a / b := by
      rw [le_div_iff₀ hbq]
      have h2 : b ≤ 2 * a := by omega
      have h2q : (b : ℚ) ≤ 2 * a := by exact_mod_cast h2
      linarith
    linarith

theorem div_finite_of_ne_zero (a b : Nat) (ea eb : Int) (hb0 : b ≠ 0) :
    ∃ mant exp, Double.div (.finite a ea) (.finite b eb) = .finite mant exp := by
  simp only [Double.div, if_neg hb0]
  unfold Double.normal
  split_ifs <;> exact ⟨_, _, rfl⟩

theorem ofUInt64_finite (n : Nat) : ∃ mant exp, Double.ofUInt64 n = .finite mant exp := by
  by_cases hne : n = 0
  · exact ⟨0, 0, by simp [Double.ofUInt64, hne]⟩
  · obtain ⟨mant, exp, h, _⟩ := ofUInt64_mant_ne_zero hne
    exact ⟨mant, exp, h⟩

theorem propHeightDivisor_eq_max (e : TimelineEvents) :
    propHeightDivisor e = max (eventWidth e) 1 := by
  unfold propHeightDivisor
  by_cases hw : eventWidth e = 0
  · simp [hw]
  · have : 1 ≤ eventWidth e := Nat.one_le_iff_ne_zero.2 hw
    simp [hw, Nat.max_eq_left this]

/-- C19. For every event: a content without `info.h` and `info.w` (anything but image,
video and sticker) gives the width and the height `2^64 - 1`; an image, video or
sticker gives the stored `w` and `h`; the divisor of `eventPropHeight` is the greater
of the width and 1, hence never zero, also after its conversion to `double`;
`eventPropHeight` is the `double` quotient of the height by that divisor, which is a
finite number (neither `inf` nor `nan`), and for heights and widths below `2^53`
(which convert exactly) it differs from the exact quotient `height / max(width, 1)` by
at most the rounding of one `double` operation, the fraction `2^-53` of the quotient. -/
theorem media_geometry (e : TimelineEvents) :
    ((∀ body url h w, e.content ≠ .image body url h w) →
      (∀ body url h w, e.content ≠ .video body url h w) →
      (∀ body url h w, e.content ≠ .sticker body url h w) →
      eventWidth e = 18446744073709551615 ∧ eventHeight e = 18446744073709551615)
    ∧ (∀ body url h w,
        (e.content = .image body url h w ∨ e.content = .video body url h w
          ∨ e.content = .sticker body url h w) →
        eventWidth e = w ∧ eventHeight e = h)
    ∧ propHeightDivisor e = max (eventWidth e) 1
    ∧ propHeightDivisor e ≠ 0
    ∧ eventPropHeight e
        = Double.div (Double.ofUInt64 (eventHeight e))
            (Double.ofUInt64 (max (eventWidth e) 1))
    ∧ (∃ mant exp, Double.ofUInt64 (max (eventWidth e) 1) = .finite mant exp ∧ mant ≠ 0)
    ∧ (∃ mant exp, eventPropHeight e = .finite mant exp)
    ∧ (eventHeight e < 2 ^ 53 → eventWidth e < 2 ^ 53 →
        ∃ v, (eventPropHeight e).toRat = some v
          ∧ |v - (eventHeight e : ℚ) / ((max (eventWidth e) 1 : Nat) : ℚ)|
              ≤ (eventHeight e : ℚ) / ((max (eventWidth e) 1 : Nat) : ℚ) / 2 ^ 53) := by
  have hdiv := propHeightDivisor_eq_max e
  have hmax : max (eventWidth e) 1 ≠ 0 := by
    have : 1 ≤ max (eventWidth e) 1 := Nat.le_max_right _ _
    omega
  have hprop : eventPropHeight e
      = Double.div (Double.ofUInt64 (eventHeight e))
          (Double.ofUInt64 (max (eventWidth e) 1)) := by
    unfold eventPropHeight
    rw [hdiv]
  obtain ⟨b, eb, hb, hb0⟩ := ofUInt64_mant_ne_zero hmax
  obtain ⟨a, ea, ha⟩ := ofUInt64_finite (eventHeight e)
  refine ⟨?_, ?_, hdiv, ?_, hprop, ⟨b, eb, hb, hb0⟩, ?_, ?_⟩
  · intro himage hvideo hsticker
    have hsentinel : sizeT (-1) = 18446744073709551615 := by decide
    unfold eventWidth eventHeight
    cases hc : e.content with
    | image body url h w => exact absurd hc (himage body url h w)
    | video body url h w => exact absurd hc (hvideo body url h w)
    | sticker body url h w => exact absurd hc (hsticker body url h w)
    | _ => exact ⟨hsentinel, hsentinel⟩
  · intro body url h w hcontent
    unfold eventWidth eventHeight
    rcases hcontent with hc | hc | hc <;> rw [hc] <;> exact ⟨rfl, rfl⟩
  · rw [hdiv]
    exact hmax
  · rw [hprop, ha, hb]
    exact div_finite_of_ne_zero a b ea eb hb0
  · intro hh hw
    rw [hprop]
    have hmlt : max (eventWidth e) 1 < 2 ^ 53 := by
      rcases Nat.le_total (eventWidth e) 1 with h | h
      · rw [Nat.max_eq_right h]
        decide
      · rw [Nat.max_eq_left h]
        exact hw
    obtain ⟨mb, xb, hmb, hb52, hb53, hbval⟩ := ofUInt64_exact hmax hmlt
    by_cases hzero : eventHeight e = 0
    · refine ⟨0, ?_, by simp [hzero]⟩
      have hbne : mb ≠ 0 := by omega
      rw [hzero, hmb]
      simp [Double.ofUInt64, Double.div, Double.toRat, hbne]
    · obtain ⟨ma, xa, hma, ha52, _, haval⟩ := ofUInt64_exact hzero hh
      obtain ⟨v, hv, hnear⟩ := div_near ma mb xa xb ha52 hb52 hb53
      rw [haval, hbval] at hnear
      exact ⟨v, by rw [hma, hmb]; exact hv, hnear⟩

/-- C19 at four events: a text message has the sentinel as width and height and the
quotient 1; an image of height 480 and width 640 has the quotient 3/4, which is exact;
with the width 0 the height 480 is divided by 1; an image of height 1 and width 3 has
the `double` nearest to 1/3. -/
theorem media_geometry_witness :
    eventWidth (textEvent "$1" "@a" 1000) = 18446744073709551615
    ∧ eventHeight (textEvent "$1" "@a" 1000) = 18446744073709551615
    ∧ eventPropHeight (textEvent "$1" "@a" 1000) = .finite (2 ^ 52) (-52)
    ∧ eventWidth (imageEvent 480 640) = 640
    ∧ eventHeight (imageEvent 480 640) = 480
    ∧ eventPropHeight (imageEvent 480 640) = .finite (3 * 2 ^ 51) (-53)
    ∧ (eventPropHeight (imageEvent 480 640)).toRat = some (3 / 4)
    ∧ propHeightDivisor (imageEvent 480 0) = 1
    ∧ eventPropHeight (imageEvent 480 0) = .finite (480 * 2 ^ 44) (-44)
    ∧ eventPropHeight (imageEvent 1 3) = .finite 6004799503160661 (-54)
    ∧ (∃ v, (eventPropHeight (imageEvent 1 3)).toRat = some v
        ∧ |v - (eventHeight (imageEvent 1 3) : ℚ)
              / ((max (eventWidth (imageEvent 1 3)) 1 : Nat) : ℚ)|
            ≤ (eventHeight (imageEvent 1 3) : ℚ)
              / ((max (eventWidth (imageEvent 1 3)) 1 : Nat) : ℚ) / 2 ^ 53) := by
  have ht := (media_geometry (textEvent "$1" "@a" 1000)).1
    (by intro _ _ _ _ h; cases h) (by intro _ _ _ _ h; cases h) (by intro _ _ _ _ h; cases h)
  have hi := (media_geometry (imageEvent 480 640)).2.1 "pic" "mxc://pic" 480 640 (Or.inl rfl)
  have hz := (media_geometry (imageEvent 480 0)).2.2.1
  have hthird := (media_geometry (imageEvent 1 3)).2.2.2.2.2.2.2 (by decide) (by decide)
  have hquarter : (eventPropHeight (imageEvent 480 640)).toRat = some (3 / 4) := by
    have h : eventPropHeight (imageEvent 480 640) = .finite (3 * 2 ^ 51) (-53) := by decide
    rw [h]
    simp only [Double.toRat, Option.some.injEq]
    norm_num
  exact ⟨ht.1, ht.2, by decide, hi.1, hi.2, by decide, hquarter, hz.trans (by decide),
    by decide, by decide, hthird⟩

end Timeline2
